import Mathlib

/-!
Verification development for the LOPA pipeline: a rate-limited crawler, an
incremental aggregation layer over a relational store, and a scoring engine.
Each definition below is a shallow embedding of a function of the repository
(file and symbol named in its doc comment); theorems settle the claims of the
specification against those embeddings.
-/

namespace LOPA

/-! ## Wilson lower bound (src/recommender.py, _wilson_lower_bound) -/

/-- Embedding of _wilson_lower_bound from src/recommender.py.  The Python
computes over IEEE doubles; the embedding computes the same formula over the
reals.  Arguments wins and n are the summed counters (naturals in the store);
z is the confidence parameter. -/
noncomputable def wilsonLowerBoundZ (wins n : ℕ) (z : ℝ) : ℝ :=
  if n ≤ 0 then 0
  else
    let nn : ℝ := (n : ℝ)
    let phat : ℝ := (wins : ℝ) / nn
    let denom : ℝ := 1 + z * z / nn
    let center : ℝ := phat + z * z / (2 * nn)
    let margin : ℝ := z * Real.sqrt ((phat * (1 - phat) + z * z / (4 * nn)) / nn)
    max 0 ((center - margin) / denom)

/-- Wilson lower bound at the default confidence used by every caller in
src/recommender.py (z = 1.96, the 95 percent bound). -/
noncomputable def wilsonLowerBound (wins n : ℕ) : ℝ :=
  wilsonLowerBoundZ wins n (196 / 100)

/-- Margin term of the Wilson formula, extracted for the monotonicity proof. -/
noncomputable def wilsonMargin (p : ℝ) (nn z : ℝ) : ℝ :=
  z * Real.sqrt ((p * (1 - p) + z * z / (4 * nn)) / nn)

theorem wilsonMargin_nonneg {p nn z : ℝ} (hz : 0 ≤ z) :
    0 ≤ wilsonMargin p nn z :=
  mul_nonneg hz (Real.sqrt_nonneg _)

theorem wilsonMargin_sq {p nn z : ℝ} (hnn : 0 < nn)
    (hp0 : 0 ≤ p) (hp1 : p ≤ 1) :
    wilsonMargin p nn z ^ 2 = z ^ 2 * ((p * (1 - p) + z * z / (4 * nn)) / nn) := by
  have harg : 0 ≤ (p * (1 - p) + z * z / (4 * nn)) / nn := by
    apply div_nonneg _ (le_of_lt hnn)
    have h1 : 0 ≤ p * (1 - p) := mul_nonneg hp0 (by linarith)
    have h2 : 0 ≤ z * z / (4 * nn) := div_nonneg (mul_self_nonneg z) (by linarith)
    linarith
  rw [wilsonMargin, mul_pow, Real.sq_sqrt harg]

theorem wilsonMargin_lower {p nn z : ℝ} (hz : 0 ≤ z) (hnn : 0 < nn)
    (hp0 : 0 ≤ p) (hp1 : p ≤ 1) :
    z * z / (2 * nn) ≤ wilsonMargin p nn z := by
  have hq : z * z / (4 * nn) / nn = (z / (2 * nn)) ^ 2 := by
    field_simp
    ring
  have harg : (z / (2 * nn)) ^ 2 ≤ (p * (1 - p) + z * z / (4 * nn)) / nn := by
    rw [← hq]
    apply div_le_div_of_nonneg_right _ hnn.le
    have h1 : 0 ≤ p * (1 - p) := mul_nonneg hp0 (by linarith)
    linarith
  have hsq : z / (2 * nn) ≤ Real.sqrt ((p * (1 - p) + z * z / (4 * nn)) / nn) := by
    calc z / (2 * nn) = Real.sqrt ((z / (2 * nn)) ^ 2) := by
          rw [Real.sqrt_sq (div_nonneg hz (by linarith))]
      _ ≤ _ := Real.sqrt_le_sqrt harg
  calc z * z / (2 * nn) = z * (z / (2 * nn)) := by ring
    _ ≤ z * Real.sqrt ((p * (1 - p) + z * z / (4 * nn)) / nn) :=
        mul_le_mul_of_nonneg_left hsq hz
    _ = wilsonMargin p nn z := rfl

/-- Core inequality: the margin grows by at most the growth of the center. -/
theorem wilsonMargin_shift {p1 p2 nn z : ℝ} (hz : 0 ≤ z) (hnn : 0 < nn)
    (hp0 : 0 ≤ p1) (h12 : p1 ≤ p2) (hp1 : p2 ≤ 1) :
    wilsonMargin p2 nn z ≤ (p2 - p1) + wilsonMargin p1 nn z := by
  have hp1le : p1 ≤ 1 := le_trans h12 hp1
  have hp20 : 0 ≤ p2 := le_trans hp0 h12
  have hm1 : 0 ≤ wilsonMargin p1 nn z := wilsonMargin_nonneg hz
  have hm2 : 0 ≤ wilsonMargin p2 nn z := wilsonMargin_nonneg hz
  have hδ : 0 ≤ p2 - p1 := by linarith
  have hq : 0 ≤ z * z / nn := div_nonneg (mul_self_nonneg z) (le_of_lt hnn)
  have hm1lb : z * z / (2 * nn) ≤ wilsonMargin p1 nn z :=
    wilsonMargin_lower hz hnn hp0 hp1le
  have hs1 := wilsonMargin_sq (p := p1) (z := z) hnn hp0 hp1le
  have hs2 := wilsonMargin_sq (p := p2) (z := z) hnn hp20 hp1
  have hsqle : wilsonMargin p2 nn z ^ 2 ≤ ((p2 - p1) + wilsonMargin p1 nn z) ^ 2 := by
    have hexp1 : wilsonMargin p1 nn z ^ 2
        = z * z / nn * (p1 * (1 - p1)) + z * z / nn * (z * z / (4 * nn)) := by
      rw [hs1]; field_simp; ring
    have hexp2 : wilsonMargin p2 nn z ^ 2
        = z * z / nn * (p2 * (1 - p2)) + z * z / nn * (z * z / (4 * nn)) := by
      rw [hs2]; field_simp; ring
    have key : z * z / nn * (p2 * (1 - p2)) - z * z / nn * (p1 * (1 - p1))
        ≤ (p2 - p1) ^ 2 + 2 * (p2 - p1) * wilsonMargin p1 nn z := by
      have hfact : z * z / nn * (p2 * (1 - p2)) - z * z / nn * (p1 * (1 - p1))
          = z * z / nn * (p2 - p1) * (1 - p1 - p2) := by ring
      have h1 : z * z / nn * (p2 - p1) * (1 - p1 - p2)
          ≤ z * z / nn * (p2 - p1) := by
        have hh : 0 ≤ z * z / nn * (p2 - p1) := mul_nonneg hq hδ
        nlinarith
      have h2 : z * z / nn * (p2 - p1) ≤ 2 * wilsonMargin p1 nn z * (p2 - p1) := by
        apply mul_le_mul_of_nonneg_right _ hδ
        calc z * z / nn = 2 * (z * z / (2 * nn)) := by field_simp; ring
          _ ≤ 2 * wilsonMargin p1 nn z := by linarith
      nlinarith [sq_nonneg (p2 - p1)]
    have goal2 : wilsonMargin p2 nn z ^ 2
        ≤ (p2 - p1) ^ 2 + 2 * (p2 - p1) * wilsonMargin p1 nn z
          + wilsonMargin p1 nn z ^ 2 := by
      rw [hexp1, hexp2]
      linarith
    calc wilsonMargin p2 nn z ^ 2
        ≤ (p2 - p1) ^ 2 + 2 * (p2 - p1) * wilsonMargin p1 nn z
          + wilsonMargin p1 nn z ^ 2 := goal2
      _ = ((p2 - p1) + wilsonMargin p1 nn z) ^ 2 := by ring
  nlinarith [hsqle, hm1, hm2, hδ]

/-- C7: for fixed games n > 0 and wins w1 ≤ w2 ≤ n, the 95 percent Wilson lower
bound computed by the scoring engine is monotonically non-decreasing in wins:
wilsonLowerBound w1 n ≤ wilsonLowerBound w2 n. -/
theorem wilson_lower_bound_monotone_in_wins (n w1 w2 : ℕ)
    (hn : 0 < n) (h12 : w1 ≤ w2) (h2n : w2 ≤ n) :
    wilsonLowerBound w1 n ≤ wilsonLowerBound w2 n := by
  have hz : (0 : ℝ) ≤ 196 / 100 := by norm_num
  unfold wilsonLowerBound wilsonLowerBoundZ
  have hn0 : ¬ n ≤ 0 := by omega
  simp only [hn0, if_false]
  have hnn : (0 : ℝ) < (n : ℝ) := by exact_mod_cast hn
  set z : ℝ := 196 / 100 with hzdef
  set p1 : ℝ := (w1 : ℝ) / (n : ℝ) with hp1def
  set p2 : ℝ := (w2 : ℝ) / (n : ℝ) with hp2def
  have hp10 : 0 ≤ p1 := div_nonneg (Nat.cast_nonneg _) (le_of_lt hnn)
  have h12r : p1 ≤ p2 := by
    apply div_le_div_of_nonneg_right _ hnn.le
    exact_mod_cast h12
  have hp21 : p2 ≤ 1 := by
    rw [hp2def, div_le_one hnn]
    exact_mod_cast h2n
  have hmarg : wilsonMargin p2 (n : ℝ) z ≤ (p2 - p1) + wilsonMargin p1 (n : ℝ) z :=
    wilsonMargin_shift hz hnn hp10 h12r hp21
  have hdenom : (0 : ℝ) < 1 + z * z / (n : ℝ) := by positivity
  apply max_le_max le_rfl
  apply div_le_div_of_nonneg_right _ hdenom.le
  unfold wilsonMargin at hmarg
  linarith

/-- Witness for the Wilson monotonicity theorem at a concrete input. -/
theorem wilson_lower_bound_monotone_in_wins_witness :
    wilsonLowerBound 1 3 ≤ wilsonLowerBound 2 3 :=
  wilson_lower_bound_monotone_in_wins 3 1 2 (by decide) (by decide) (by decide)

/-! ## Checkpoint store (src/checkpoint_store.py)

The store persists three JSON strings (queue_json, visited_json, meta_json)
either in a key-value table or in a legacy single row.  JSON values are
embedded as JVal (numbers restricted to integers, which covers every value the
crawler persists); the external json module is abstracted as an encode
function (json.dumps) and a decode function (json.loads, returning none when
parsing raises). -/

/-- JSON values as produced by json.loads. -/
inductive JVal where
  | jnull : JVal
  | jbool (b : Bool) : JVal
  | jint (n : ℤ) : JVal
  | jstr (s : String) : JVal
  | jarr (xs : List JVal) : JVal
  | jobj (fields : List (String × JVal)) : JVal

/-- Python truthiness of a decoded JSON value (the `if x` filters). -/
def pyTruthy : JVal → Bool
  | .jnull => false
  | .jbool b => b
  | .jint n => n ≠ 0
  | .jstr s => s ≠ ""
  | .jarr xs => ¬ xs.isEmpty
  | .jobj fs => ¬ fs.isEmpty

mutual

/-- Python repr of a decoded JSON value, used by str() on lists and dicts. -/
def pyRepr : JVal → String
  | .jnull => "None"
  | .jbool true => "True"
  | .jbool false => "False"
  | .jint n => toString n
  | .jstr s => "\x27" ++ s ++ "\x27"
  | .jarr xs => "[" ++ String.intercalate ", " (pyReprList xs) ++ "]"
  | .jobj fs => "\x7b" ++ String.intercalate ", " (pyReprFields fs) ++ "\x7d"

/-- Python reprs of the elements of a JSON array. -/
def pyReprList : List JVal → List String
  | [] => []
  | x :: xs => pyRepr x :: pyReprList xs

/-- Python reprs of the key-value pairs of a JSON object. -/
def pyReprFields : List (String × JVal) → List String
  | [] => []
  | (k, v) :: fs => ("\x27" ++ k ++ "\x27: " ++ pyRepr v) :: pyReprFields fs

end

/-- Python str() of a decoded JSON value (the str(x) coercions). -/
def pyStrOf : JVal → String
  | .jnull => "None"
  | .jbool true => "True"
  | .jbool false => "False"
  | .jint n => toString n
  | .jstr s => s
  | .jarr xs => pyRepr (.jarr xs)
  | .jobj fs => pyRepr (.jobj fs)

/-- Python list() over a decoded JSON value: lists stay, strings become their
one-character substrings, dicts become their key lists, scalars raise (none). -/
def pyListOf : JVal → Option (List JVal)
  | .jarr xs => some xs
  | .jstr s => some (s.data.map (fun c => .jstr (String.singleton c)))
  | .jobj fs => some (fs.map (fun kv => .jstr kv.1))
  | _ => none

/-- Python dict() over a decoded JSON value.  Persisted meta is always dumped
from a dict, so the realizable success case is a JSON object; other inputs are
modeled as the exception branch. -/
def pyDictOf : JVal → Option (List (String × JVal))
  | .jobj fs => some fs
  | _ => none

/-- Raw cells of the key-value layout of crawl_state: the three values stored
under keys queue_json, visited_json and meta_json (none when the key is
absent, as _kv_get returns None). -/
structure KVCells where
  queue_json : Option String
  visited_json : Option String
  meta_json : Option String

/-- A crawl_state store in one of the two recognized layouts detected by
_mode: key-value, or the legacy single row (none when the id=1 row is absent;
each column is itself nullable, as _row_get returns). -/
inductive CrawlStateStore where
  | kv (cells : KVCells) : CrawlStateStore
  | row (cells : Option (Option String × Option String × Option String)) : CrawlStateStore

/-- Raw (queue_json, visited_json, meta_json) strings read back from the
store, before the or-defaults of load_state are applied. -/
def rawCells : CrawlStateStore → Option String × Option String × Option String
  | .kv c => (c.queue_json, c.visited_json, c.meta_json)
  | .row none => (none, none, none)
  | .row (some t) => t

/-- Embedding of load_state from src/checkpoint_store.py, with json.loads
abstracted as the decode argument.  Missing cells fall back to the literal
strings the code substitutes; a decode failure or a list()/dict() failure is
the except branch yielding the empty default; falsy entries are dropped and
the rest coerced through str(). -/
def load_state (decode : String → Option JVal) (st : CrawlStateStore) :
    List String × List String × List (String × JVal) :=
  let raw := rawCells st
  let qj := raw.1.getD "[]"
  let vj := raw.2.1.getD "[]"
  let mj := raw.2.2.getD "\x7b\x7d"
  let queue_list : List JVal :=
    match decode qj with
    | none => []
    | some v => (pyListOf v).getD []
  let visited_list : List JVal :=
    match decode vj with
    | none => []
    | some v => (pyListOf v).getD []
  let meta : List (String × JVal) :=
    match decode mj with
    | none => []
    | some v => (pyDictOf v).getD []
  let visited_set := (visited_list.filter pyTruthy).map pyStrOf
  let queue_out := (queue_list.filter pyTruthy).map pyStrOf
  (queue_out, visited_set, meta)

/-- Embedding of save_state from src/checkpoint_store.py, with json.dumps
abstracted as the encode argument.  Both layouts store the three dumped
strings, replacing whatever was there; the layout itself is preserved. -/
def save_state (encode : JVal → String) (st : CrawlStateStore)
    (queue_list : List String) (visited_set : List String)
    (meta : List (String × JVal)) : CrawlStateStore :=
  let qj := encode (.jarr (queue_list.map .jstr))
  let vj := encode (.jarr (visited_set.map .jstr))
  let mj := encode (.jobj meta)
  match st with
  | .kv _ => .kv ⟨some qj, some vj, some mj⟩
  | .row _ => .row (some (some qj, some vj, some mj))

/-- Python dict merge as performed by _save_state_merge_meta in
src/collector_graph.py: merged = dict(old); merged.update(updates).  Existing
keys keep their position with the updated value; new keys are appended. -/
def dictUpdate (old updates : List (String × JVal)) : List (String × JVal) :=
  old.map (fun kv =>
    match updates.lookup kv.1 with
    | some v => (kv.1, v)
    | none => kv)
  ++ updates.filter (fun kv => (old.lookup kv.1).isNone)

/-- Embedding of _save_state_merge_meta from src/collector_graph.py: load the
persisted meta, merge the collector updates into it, and save the result. -/
def save_state_merge_meta (decode : String → Option JVal) (encode : JVal → String)
    (st : CrawlStateStore) (queue_list : List String) (visited_set : List String)
    (collector_updates : List (String × JVal)) : CrawlStateStore :=
  let old_meta := (load_state decode st).2.2
  save_state encode st queue_list visited_set (dictUpdate old_meta collector_updates)

theorem lookup_filter_eq_none {α : Type _} [BEq α] {β : Type _} {k : α}
    {l : List (α × β)} (h : l.lookup k = none) (p : α × β → Bool) :
    (l.filter p).lookup k = none := by
  induction l with
  | nil => simp
  | cons x xs ih =>
      by_cases hk : (k == x.1) = true
      · simp [List.lookup, hk] at h
      · simp [List.lookup, hk] at h
        have hxs := ih h
        by_cases hp : p x = true
        · simp [List.filter_cons, hp, List.lookup, hk, hxs]
        · simp [List.filter_cons, hp, hxs]

theorem lookup_append_pairs {α : Type _} [BEq α] {β : Type _}
    (l₁ l₂ : List (α × β)) (k : α) :
    ((l₁ ++ l₂).lookup k) = ((l₁.lookup k).or (l₂.lookup k)) := by
  induction l₁ with
  | nil => simp
  | cons x xs ih =>
      by_cases hk : (k == x.1) = true
      · simp [List.lookup, hk]
      · simp [List.lookup, hk, ih]

theorem lookup_map_merge {updates : List (String × JVal)} {k : String}
    (h : updates.lookup k = none) (old : List (String × JVal)) :
    ((old.map (fun kv =>
      match updates.lookup kv.1 with
      | some v => (kv.1, v)
      | none => kv)).lookup k) = old.lookup k := by
  induction old with
  | nil => simp
  | cons x xs ih =>
      by_cases hk : (k == x.1) = true
      · have hkx : k = x.1 := by simpa using hk
        have hlook : updates.lookup x.1 = none := by rw [← hkx]; exact h
        simp [List.lookup, hlook, hk]
      · cases hlook : updates.lookup x.1 with
        | some v => simp [List.lookup, hlook, hk, ih]
        | none => simp [List.lookup, hlook, hk, ih]

theorem dictUpdate_lookup_of_not_updated {old updates : List (String × JVal)}
    {k : String} (h : updates.lookup k = none) :
    (dictUpdate old updates).lookup k = old.lookup k := by
  unfold dictUpdate
  rw [lookup_append_pairs, lookup_map_merge h, lookup_filter_eq_none h]
  cases old.lookup k <;> simp

/-- Concrete store for the checkpoint counterexamples: the kv layout holding a
persisted meta object with the single key a. -/
def storeEx : CrawlStateStore :=
  .kv ⟨some "[]", some "[]", some "MA"⟩

/-- Concrete stand-in for json.loads covering the strings that appear in the
checkpoint counterexamples. -/
def decodeEx : String → Option JVal :=
  fun s =>
    if s = "MA" then some (.jobj [("a", .jint 1)])
    else if s = "MB" then some (.jobj [("b", .jint 2)])
    else if s = "MAB" then some (.jobj [("a", .jint 1), ("b", .jint 2)])
    else if s = "[]" then some (.jarr [])
    else if s = "\x7b\x7d" then some (.jobj [])
    else none

/-- Concrete stand-in for json.dumps, inverse of decodeEx on the values that
appear in the checkpoint counterexamples. -/
def encodeEx : JVal → String
  | .jobj [("a", .jint 1)] => "MA"
  | .jobj [("b", .jint 2)] => "MB"
  | .jobj [("a", .jint 1), ("b", .jint 2)] => "MAB"
  | .jarr [] => "[]"
  | _ => "?"

/-- C4 counterexample: save_state does not merge meta.  With key a persisted
with value 1 and a caller meta carrying only key b, the claim as stated says
key a keeps its previous value after save; but after save_state the persisted
meta no longer contains key a at all. -/
theorem save_state_replaces_meta_counterexample :
    ((load_state decodeEx storeEx).2.2).lookup "a" = some (.jint 1) ∧
    ((load_state decodeEx
        (save_state encodeEx storeEx [] [] [("b", .jint 2)])).2.2).lookup "a" = none := by
  constructor <;> rfl

theorem load_state_save_state_meta (decode : String → Option JVal)
    (encode : JVal → String) (st : CrawlStateStore) (q v : List String)
    (meta : List (String × JVal))
    (h : decode (encode (.jobj meta)) = some (.jobj meta)) :
    (load_state decode (save_state encode st q v meta)).2.2 = meta := by
  cases st with
  | kv c => simp [load_state, save_state, rawCells, h, pyDictOf]
  | row c => simp [load_state, save_state, rawCells, h, pyDictOf]

/-- C4 amended: the merge lives one layer up, in _save_state_merge_meta of
src/collector_graph.py, which loads the persisted meta, dict-merges the
caller updates into it and saves the result; for saves made through that
wrapper, any persisted meta key absent from the caller updates keeps its
previous value (assuming json round-trips the saved object). -/
theorem save_state_merge_meta_preserves_unrelated_keys
    (decode : String → Option JVal) (encode : JVal → String)
    (st : CrawlStateStore) (q v : List String)
    (updates : List (String × JVal)) (k : String) (val : JVal)
    (hrt : decode (encode (.jobj (dictUpdate (load_state decode st).2.2 updates)))
        = some (.jobj (dictUpdate (load_state decode st).2.2 updates)))
    (hup : updates.lookup k = none)
    (hold : ((load_state decode st).2.2).lookup k = some val) :
    ((load_state decode
        (save_state_merge_meta decode encode st q v updates)).2.2).lookup k
      = some val := by
  have hmeta := load_state_save_state_meta decode encode st q v
    (dictUpdate (load_state decode st).2.2 updates) hrt
  simp only [save_state_merge_meta]
  rw [hmeta, dictUpdate_lookup_of_not_updated hup]
  exact hold

/-- Witness for the amended meta-merge theorem at a concrete input. -/
theorem save_state_merge_meta_preserves_unrelated_keys_witness :
    ((load_state decodeEx
        (save_state_merge_meta decodeEx encodeEx storeEx [] [] [("b", .jint 2)])).2.2).lookup "a"
      = some (.jint 1) :=
  save_state_merge_meta_preserves_unrelated_keys decodeEx encodeEx storeEx [] []
    [("b", .jint 2)] "a" (.jint 1) (by rfl) (by rfl) (by rfl)

theorem toDigitsCore_length_ge (b : ℕ) (f : ℕ) :
    ∀ (n : ℕ) (l : List Char), l.length ≤ (Nat.toDigitsCore b f n l).length := by
  induction f with
  | zero => intro n l; simp [Nat.toDigitsCore]
  | succ f ih =>
      intro n l
      simp only [Nat.toDigitsCore]
      split
      · simp
      · exact le_trans (by simp) (ih (n / b) (Nat.digitChar (n % b) :: l))

theorem natRepr_ne_empty (n : ℕ) : Nat.repr n ≠ "" := by
  have hlen : 1 ≤ (Nat.toDigits 10 n).length := by
    unfold Nat.toDigits
    simp only [Nat.toDigitsCore]
    split
    · simp
    · exact le_trans (by simp) (toDigitsCore_length_ge 10 n (n / 10) [Nat.digitChar (n % 10)])
  have hrepr : (Nat.repr n).length = (Nat.toDigits 10 n).length := rfl
  intro h
  rw [h] at hrepr
  have hz : ("" : String).length = 0 := rfl
  omega

theorem intToString_ne_empty (n : ℤ) : toString n ≠ "" := by
  cases n with
  | ofNat m =>
      have h := natRepr_ne_empty m
      simpa [toString, Int.repr] using h
  | negSucc m =>
      intro h
      have : (toString (Int.negSucc m)).length = 0 := by rw [h]; rfl
      simp only [toString, Int.repr, String.length_append] at this
      have h2 : ("-" : String).length = 1 := rfl
      omega

theorem string_ne_empty_of_length_pos {s : String} (h : 0 < s.length) : s ≠ "" := by
  intro he
  rw [he] at h
  simp at h

/-- Truthy decoded values never coerce to the empty string through str(). -/
theorem pyStrOf_ne_empty {x : JVal} (hx : pyTruthy x = true) : pyStrOf x ≠ "" := by
  cases x with
  | jnull => simp [pyTruthy] at hx
  | jbool b =>
      cases b with
      | true => simp [pyStrOf]
      | false => simp [pyTruthy] at hx
  | jint n => exact intToString_ne_empty n
  | jstr s => simpa [pyTruthy] using hx
  | jarr xs =>
      apply string_ne_empty_of_length_pos
      simp only [pyStrOf, pyRepr, String.length_append]
      have h1 : ("[" : String).length = 1 := rfl
      omega
  | jobj fs =>
      apply string_ne_empty_of_length_pos
      simp only [pyStrOf, pyRepr, String.length_append]
      have h1 : ("\x7b" : String).length = 1 := rfl
      omega

/-- C10: load_state is total in both recognized layouts.  A missing cell or a
cell whose string fails to decode yields the empty default for that component
(empty frontier, empty visited set, empty meta map), and the frontier and
visited components never contain the empty string (falsy entries are dropped
before the str() coercion). -/
theorem load_state_defaults_and_drops_empty
    (decode : String → Option JVal) (st : CrawlStateStore)
    (hA : decode "[]" = some (.jarr []))
    (hO : decode "\x7b\x7d" = some (.jobj [])) :
    (((rawCells st).1 = none ∨ decode ((rawCells st).1.getD "[]") = none) →
        (load_state decode st).1 = []) ∧
    (((rawCells st).2.1 = none ∨ decode ((rawCells st).2.1.getD "[]") = none) →
        (load_state decode st).2.1 = []) ∧
    (((rawCells st).2.2 = none ∨ decode ((rawCells st).2.2.getD "\x7b\x7d") = none) →
        (load_state decode st).2.2 = []) ∧
    (∀ s ∈ (load_state decode st).1, s ≠ "") ∧
    (∀ s ∈ (load_state decode st).2.1, s ≠ "") := by
  refine ⟨?_, ?_, ?_, ?_, ?_⟩
  · intro h
    rcases h with h | h
    · simp [load_state, h, hA, pyListOf]
    · simp [load_state, h]
  · intro h
    rcases h with h | h
    · simp [load_state, h, hA, pyListOf]
    · simp [load_state, h]
  · intro h
    rcases h with h | h
    · simp [load_state, h, hO, pyDictOf]
    · simp [load_state, h]
  · intro s hs
    simp only [load_state, List.mem_map] at hs
    obtain ⟨x, hxmem, hxeq⟩ := hs
    rw [List.mem_filter] at hxmem
    rw [← hxeq]
    exact pyStrOf_ne_empty hxmem.2
  · intro s hs
    simp only [load_state, List.mem_map] at hs
    obtain ⟨x, hxmem, hxeq⟩ := hs
    rw [List.mem_filter] at hxmem
    rw [← hxeq]
    exact pyStrOf_ne_empty hxmem.2

/-- Concrete stand-in for json.loads used by the load_state witness: only the
two default literals decode; everything else fails to parse. -/
def decodeDefaultsOnly : String → Option JVal :=
  fun s =>
    if s = "[]" then some (.jarr [])
    else if s = "\x7b\x7d" then some (.jobj [])
    else none

/-- Concrete store for the load_state witness: a kv layout with one corrupt
cell, one missing cell and one more corrupt cell. -/
def storeCorrupt : CrawlStateStore :=
  .kv ⟨some "junk", none, some "more junk"⟩

/-- Witness for the load_state totality theorem at a concrete input. -/
theorem load_state_defaults_and_drops_empty_witness :
    (((rawCells storeCorrupt).1 = none ∨
        decodeDefaultsOnly ((rawCells storeCorrupt).1.getD "[]") = none) →
        (load_state decodeDefaultsOnly storeCorrupt).1 = []) ∧
    (((rawCells storeCorrupt).2.1 = none ∨
        decodeDefaultsOnly ((rawCells storeCorrupt).2.1.getD "[]") = none) →
        (load_state decodeDefaultsOnly storeCorrupt).2.1 = []) ∧
    (((rawCells storeCorrupt).2.2 = none ∨
        decodeDefaultsOnly ((rawCells storeCorrupt).2.2.getD "\x7b\x7d") = none) →
        (load_state decodeDefaultsOnly storeCorrupt).2.2 = []) ∧
    (∀ s ∈ (load_state decodeDefaultsOnly storeCorrupt).1, s ≠ "") ∧
    (∀ s ∈ (load_state decodeDefaultsOnly storeCorrupt).2.1, s ≠ "") :=
  load_state_defaults_and_drops_empty decodeDefaultsOnly storeCorrupt (by rfl) (by rfl)

/-! ## Incremental aggregation
(src/backfill_champ_role.py, src/backfill_matchups.py, src/build_synergy.py,
src/storage.py)

A job is (statistic kind, patch scope, tier scope) with a deterministic job
id.  Pending matches are those in scope and not yet in the backfill_done
ledger; each pending match contributes per-participant (champ-role job),
per-cross-team-pairing (matchup job) or per-same-team-pairing (synergy job)
increments, and is recorded in the ledger in the same transaction as its
increments. -/

/-- Canonical role labels (ROLES in the sources). -/
def ROLES : List String := ["TOP", "JUNGLE", "MIDDLE", "BOTTOM", "UTILITY"]

/-- A row of the matches table as read by the backfill queries: match id,
creation time, patch, and the joined median match_tier label (null when
absent). -/
structure MatchRow where
  match_id : String
  game_creation : ℤ
  patch : String
  mt_tier : Option String
deriving DecidableEq

/-- A row of the participants table as read by the backfill queries.  The
crawler writes win as 1 if the participant won else 0, so win is a Bool. -/
structure PartRow where
  match_id : String
  team_id : ℤ
  role : String
  champ_id : ℤ
  win : Bool
deriving DecidableEq

/-- Embedding of _patch_pat: the SQL LIKE pattern for the patch scope. -/
def patchPat (patch : String) : String :=
  if patch.toUpper = "ALL" then "%" else patch

/-- SQL LIKE as used by the backfill queries: the pattern is either the
wildcard percent (scope ALL) or a literal patch string containing no LIKE
metacharacters, so it matches everything or tests equality. -/
def sqlLike (pat s : String) : Bool :=
  if pat = "%" then true else s = pat

/-- Embedding of _force_tier: ALL means keep the per-match tier label. -/
def forceTier (tier : String) : Option String :=
  if tier.toUpper = "ALL" then none else some tier.toUpper

/-- Embedding of _job_id from src/backfill_champ_role.py. -/
def champRoleJobId (patch tier : String) : String :=
  "champ_role|patch=" ++ patch.toUpper ++ "|tier=" ++ tier.toUpper

/-- Embedding of _job_id from src/backfill_matchups.py. -/
def matchupJobId (patch tier : String) : String :=
  "matchups|patch=" ++ patch.toUpper ++ "|tier=" ++ tier.toUpper

/-- Embedding of _job_id from src/build_synergy.py. -/
def synergyJobId (patch tier : String) : String :=
  "synergy|patch=" ++ patch.toUpper ++ "|tier=" ++ tier.toUpper

/-- An aggregate counter table keyed by K, each row carrying (games, wins).
Models agg_champ_role and agg_matchup_role. -/
abbrev AggTable (K : Type _) := List (K × ℕ × ℕ)

/-- Upsert-with-add: INSERT ... ON CONFLICT(key) DO UPDATE SET games = games +
excluded.games, wins = wins + excluded.wins, as in the backfill flushes and in
upsert_agg / upsert_matchup_role of src/storage.py (there with deltas 1 and
the win flag). -/
def upsertAdd {K : Type _} [DecidableEq K] (t : AggTable K) (k : K)
    (dg dw : ℕ) : AggTable K :=
  if t.any (fun r => r.1 = k) then
    t.map (fun r => if r.1 = k then (r.1, r.2.1 + dg, r.2.2 + dw) else r)
  else
    t ++ [(k, dg, dw)]

/-- Key of an agg_champ_role row: (patch, tier, role, champ). -/
abbrev ChampRoleKey := String × Option String × String × ℤ

/-- Key of an agg_matchup_role row:
(patch, tier, my role, enemy role, my champ, enemy champ). -/
abbrev MatchupKey := String × Option String × String × String × ℤ × ℤ

/-- Per-match contributions of the champ-role job: one (key, win) per
participant row whose uppercased role is canonical and whose champ id is
positive. -/
def champRoleContrib (parts : List PartRow) (m : MatchRow) (tier : Option String) :
    List (ChampRoleKey × Bool) :=
  (parts.filter (fun p => p.match_id = m.match_id)).filterMap (fun p =>
    let role := p.role.toUpper
    if role ∈ ROLES ∧ 0 < p.champ_id then
      some ((m.patch, tier, role, p.champ_id), p.win)
    else none)

/-- The team_slots map of the matchup job: team id to role to (champ, win),
keeping the first participant seen per (team, role) slot. -/
def buildTeamSlots (rows : List PartRow) : List (ℤ × List (String × ℤ × Bool)) :=
  rows.foldl (fun acc p =>
    let role := p.role.toUpper
    if role ∈ ROLES ∧ (0 : ℤ) < p.champ_id then
      match acc.lookup p.team_id with
      | none => acc ++ [(p.team_id, [(role, p.champ_id, p.win)])]
      | some slots =>
          if (slots.lookup role).isSome then acc
          else acc.map (fun ts =>
            if ts.1 = p.team_id then (ts.1, ts.2 ++ [(role, p.champ_id, p.win)])
            else ts)
    else acc) []

/-- Cross-team pairings of one match for the matchup job: for every ordered
pair of distinct teams and every pair of filled role slots, one contribution
keyed by both roles and champs, counting the win of the own side. -/
def matchupContrib (parts : List PartRow) (m : MatchRow) (tier : Option String) :
    List (MatchupKey × Bool) :=
  let slots := buildTeamSlots (parts.filter (fun p => p.match_id = m.match_id))
  let teams := slots.map (·.1)
  if 2 ≤ teams.length then
    teams.flatMap (fun my_team =>
      teams.flatMap (fun en_team =>
        if my_team = en_team then []
        else
          let my_map := (slots.lookup my_team).getD []
          let en_map := (slots.lookup en_team).getD []
          if my_map.isEmpty ∨ en_map.isEmpty then []
          else
            ROLES.flatMap (fun my_role =>
              match my_map.lookup my_role with
              | none => []
              | some (my_champ, my_win) =>
                  ROLES.flatMap (fun en_role =>
                    match en_map.lookup en_role with
                    | none => []
                    | some (en_champ, _) =>
                        [((m.patch, tier, my_role, en_role, my_champ, en_champ),
                          my_win)]))))
  else []

/-- State of one aggregation job: the raw tables it reads (matches,
participants), its own aggregate table and the done-ledger. -/
structure JobState (K : Type _) where
  matchRows : List MatchRow
  participants : List PartRow
  agg : AggTable K
  done : List (String × String)

/-- INSERT OR IGNORE into backfill_done: (job_id, match_id) is a primary key,
so an existing pair is left untouched. -/
def insertDone (done : List (String × String)) (jobid mid : String) :
    List (String × String) :=
  if (jobid, mid) ∈ done then done else done ++ [(jobid, mid)]

/-- Pending matches of a job: in patch scope and not in the ledger, processed
in (game_creation, match_id) order. -/
def pendingMatches {K : Type _} (jobid patchArg : String) (st : JobState K) :
    List MatchRow :=
  (st.matchRows.filter (fun m =>
    sqlLike (patchPat patchArg) m.patch && !(decide ((jobid, m.match_id) ∈ st.done)))).mergeSort
    (fun a b => decide (a.game_creation < b.game_creation) ||
      (decide (a.game_creation = b.game_creation) && decide (a.match_id ≤ b.match_id)))

/-- One backfill step: fold the contributions of one pending match into the
aggregate table (each participant or pairing adds games 1 and wins 0 or 1)
and record the match in the ledger.  The per-match tier is the forced scope
tier, else the joined match_tier label. -/
def jobStep {K : Type _} [DecidableEq K] (jobid : String) (ft : Option String)
    (contrib : List PartRow → MatchRow → Option String → List (K × Bool))
    (acc : JobState K) (m : MatchRow) : JobState K :=
  let t := match ft with
    | some x => some x
    | none => m.mt_tier
  let cs := contrib acc.participants m t
  { acc with
    agg := cs.foldl (fun tb c => upsertAdd tb c.1 1 (if c.2 then 1 else 0)) acc.agg
    done := insertDone acc.done jobid m.match_id }

/-- One backfill run: jobStep folded over every pending match in order,
batching elided (every batch commits, so the final state is the full fold). -/
def runJob {K : Type _} [DecidableEq K] (jobid patchArg : String)
    (ft : Option String)
    (contrib : List PartRow → MatchRow → Option String → List (K × Bool))
    (st : JobState K) : JobState K :=
  (pendingMatches jobid patchArg st).foldl (jobStep jobid ft contrib) st

/-- Embedding of main from src/backfill_champ_role.py (incremental path,
batching elided: every batch commits, so the final state is the fold over all
pending matches). -/
def runChampRoleJob (patchArg tierArg : String) (st : JobState ChampRoleKey) :
    JobState ChampRoleKey :=
  runJob (champRoleJobId patchArg tierArg) patchArg (forceTier tierArg)
    champRoleContrib st

/-- Embedding of main from src/backfill_matchups.py (incremental path). -/
def runMatchupJob (patchArg tierArg : String) (st : JobState MatchupKey) :
    JobState MatchupKey :=
  runJob (matchupJobId patchArg tierArg) patchArg (forceTier tierArg)
    matchupContrib st

/-- Key of an agg_synergy_role row:
(patch, tier, my role, ally role, my champ, ally champ). -/
abbrev SynergyKey := String × Option String × String × String × ℤ × ℤ

/-- The teams map of the synergy job: team id to the list of all its
(role, champ, win) rows in order, keeping only rows with a canonical
uppercased role and a positive champ id (no per-role dedup here, unlike the
matchup job's slots). -/
def buildTeamLists (rows : List PartRow) : List (ℤ × List (String × ℤ × Bool)) :=
  rows.foldl (fun acc p =>
    let role := p.role.toUpper
    if role ∈ ROLES ∧ (0 : ℤ) < p.champ_id then
      match acc.lookup p.team_id with
      | none => acc ++ [(p.team_id, [(role, p.champ_id, p.win)])]
      | some _ => acc.map (fun ts =>
          if ts.1 = p.team_id then (ts.1, ts.2 ++ [(role, p.champ_id, p.win)])
          else ts)
    else acc) []

/-- Same-team pairings of one match for the synergy job: for every team and
every ordered pair of its rows other than the exact self-pair (same role and
same champ), one contribution keyed by both roles and champs, counting the
win of the own side. -/
def synergyContrib (parts : List PartRow) (m : MatchRow) (tier : Option String) :
    List (SynergyKey × Bool) :=
  let teams := buildTeamLists (parts.filter (fun p => p.match_id = m.match_id))
  teams.flatMap (fun ts =>
    ts.2.flatMap (fun my =>
      ts.2.filterMap (fun ally =>
        if my.1 = ally.1 ∧ my.2.1 = ally.2.1 then none
        else some ((m.patch, tier, my.1, ally.1, my.2.1, ally.2.1), my.2.2))))

/-- Embedding of main from src/build_synergy.py (incremental path). -/
def runSynergyJob (patchArg tierArg : String) (st : JobState SynergyKey) :
    JobState SynergyKey :=
  runJob (synergyJobId patchArg tierArg) patchArg (forceTier tierArg)
    synergyContrib st

theorem jobStep_matchRows {K : Type _} [DecidableEq K] (jobid : String)
    (ft : Option String) (contrib : List PartRow → MatchRow → Option String → List (K × Bool))
    (acc : JobState K) (m : MatchRow) :
    (jobStep jobid ft contrib acc m).matchRows = acc.matchRows := rfl

theorem foldl_jobStep_matchRows {K : Type _} [DecidableEq K] (jobid : String)
    (ft : Option String) (contrib : List PartRow → MatchRow → Option String → List (K × Bool)) :
    ∀ (l : List MatchRow) (acc : JobState K),
      (l.foldl (jobStep jobid ft contrib) acc).matchRows = acc.matchRows := by
  intro l
  induction l with
  | nil => intro acc; rfl
  | cons m ms ih =>
      intro acc
      rw [List.foldl_cons, ih, jobStep_matchRows]

theorem insertDone_mem {done : List (String × String)} {x : String × String}
    (h : x ∈ done) (jobid mid : String) : x ∈ insertDone done jobid mid := by
  unfold insertDone
  split
  · exact h
  · exact List.mem_append_left _ h

theorem insertDone_mem_self (done : List (String × String)) (jobid mid : String) :
    (jobid, mid) ∈ insertDone done jobid mid := by
  unfold insertDone
  split
  · assumption
  · exact List.mem_append_right _ (List.mem_singleton_self _)

theorem foldl_jobStep_done_mono {K : Type _} [DecidableEq K] (jobid : String)
    (ft : Option String) (contrib : List PartRow → MatchRow → Option String → List (K × Bool)) :
    ∀ (l : List MatchRow) (acc : JobState K) (x : String × String),
      x ∈ acc.done → x ∈ (l.foldl (jobStep jobid ft contrib) acc).done := by
  intro l
  induction l with
  | nil => intro acc x hx; exact hx
  | cons m ms ih =>
      intro acc x hx
      rw [List.foldl_cons]
      exact ih _ x (insertDone_mem hx jobid m.match_id)

theorem foldl_jobStep_done_of_mem {K : Type _} [DecidableEq K] (jobid : String)
    (ft : Option String) (contrib : List PartRow → MatchRow → Option String → List (K × Bool)) :
    ∀ (l : List MatchRow) (acc : JobState K) (m : MatchRow), m ∈ l →
      (jobid, m.match_id) ∈ (l.foldl (jobStep jobid ft contrib) acc).done := by
  intro l
  induction l with
  | nil => intro acc m hm; cases hm
  | cons m0 ms ih =>
      intro acc m hm
      rw [List.foldl_cons]
      rcases List.mem_cons.mp hm with heq | hmem
      · subst heq
        exact foldl_jobStep_done_mono jobid ft contrib ms _ _
          (insertDone_mem_self acc.done jobid m.match_id)
      · exact ih _ m hmem

theorem runJob_pending_empty_after {K : Type _} [DecidableEq K]
    (jobid patchArg : String) (ft : Option String)
    (contrib : List PartRow → MatchRow → Option String → List (K × Bool))
    (st : JobState K) :
    pendingMatches jobid patchArg (runJob jobid patchArg ft contrib st) = [] := by
  have hfil : (runJob jobid patchArg ft contrib st).matchRows.filter (fun m =>
      sqlLike (patchPat patchArg) m.patch &&
        !(decide ((jobid, m.match_id) ∈ (runJob jobid patchArg ft contrib st).done)))
      = [] := by
    rw [List.filter_eq_nil_iff]
    intro m hm hcond
    have hm0 : m ∈ st.matchRows := by
      rw [runJob, foldl_jobStep_matchRows] at hm
      exact hm
    obtain ⟨hlike, hnot⟩ := Bool.and_eq_true _ _ |>.mp hcond
    have hnotin : (jobid, m.match_id) ∉ (runJob jobid patchArg ft contrib st).done := by
      simpa using hnot
    apply hnotin
    by_cases hdone : (jobid, m.match_id) ∈ st.done
    · rw [runJob]
      exact foldl_jobStep_done_mono jobid ft contrib _ st _ hdone
    · have hpend : m ∈ pendingMatches jobid patchArg st := by
        unfold pendingMatches
        rw [List.mem_mergeSort, List.mem_filter]
        exact ⟨hm0, by simp [hlike, hdone]⟩
      rw [runJob]
      exact foldl_jobStep_done_of_mem jobid ft contrib _ st m hpend
  unfold pendingMatches
  rw [hfil]
  simp

theorem runJob_idem {K : Type _} [DecidableEq K]
    (jobid patchArg : String) (ft : Option String)
    (contrib : List PartRow → MatchRow → Option String → List (K × Bool))
    (st : JobState K) :
    runJob jobid patchArg ft contrib (runJob jobid patchArg ft contrib st)
      = runJob jobid patchArg ft contrib st := by
  calc runJob jobid patchArg ft contrib (runJob jobid patchArg ft contrib st)
      = (pendingMatches jobid patchArg
          (runJob jobid patchArg ft contrib st)).foldl (jobStep jobid ft contrib)
          (runJob jobid patchArg ft contrib st) := rfl
    _ = ([] : List MatchRow).foldl (jobStep jobid ft contrib)
          (runJob jobid patchArg ft contrib st) := by
          rw [runJob_pending_empty_after]
    _ = runJob jobid patchArg ft contrib st := rfl

/-- C1: running an aggregation job (champ-role or matchup statistic, any patch
and tier scope) a second time over the same match set is the identity: every
aggregate counter row, and indeed the whole job state, is unchanged, because
each match already sits in backfill_done under the (job_id, match_id) key and
the pending set of the second run is empty. -/
theorem backfill_jobs_idempotent (patch tier : String)
    (stc : JobState ChampRoleKey) (stm : JobState MatchupKey) :
    runChampRoleJob patch tier (runChampRoleJob patch tier stc)
        = runChampRoleJob patch tier stc ∧
      runMatchupJob patch tier (runMatchupJob patch tier stm)
        = runMatchupJob patch tier stm :=
  ⟨runJob_idem _ _ _ _ stc, runJob_idem _ _ _ _ stm⟩

/-- Row invariant of every aggregate counter table: wins never exceed games. -/
def aggWF {K : Type _} (t : AggTable K) : Prop :=
  ∀ r ∈ t, r.2.2 ≤ r.2.1

theorem upsertAdd_wf {K : Type _} [DecidableEq K] {t : AggTable K}
    (h : aggWF t) (k : K) {dg dw : ℕ} (hd : dw ≤ dg) :
    aggWF (upsertAdd t k dg dw) := by
  unfold upsertAdd
  split
  · intro r hr
    rw [List.mem_map] at hr
    obtain ⟨r0, hr0, heq⟩ := hr
    have hw := h r0 hr0
    by_cases hk : r0.1 = k
    · rw [if_pos hk] at heq
      rw [← heq]
      simpa using Nat.add_le_add hw hd
    · rw [if_neg hk] at heq
      rw [← heq]
      exact hw
  · intro r hr
    rcases List.mem_append.mp hr with h1 | h2
    · exact h r h1
    · rw [List.mem_singleton] at h2
      rw [h2]
      simpa using hd

theorem foldl_upsertOne_wf {K : Type _} [DecidableEq K] (cs : List (K × Bool)) :
    ∀ (t : AggTable K), aggWF t →
      aggWF (cs.foldl (fun tb c => upsertAdd tb c.1 1 (if c.2 then 1 else 0)) t) := by
  induction cs with
  | nil => intro t h; exact h
  | cons c cs ih =>
      intro t h
      rw [List.foldl_cons]
      exact ih _ (upsertAdd_wf h c.1 (by cases c.2 <;> simp))

theorem jobStep_wf {K : Type _} [DecidableEq K] (jobid : String)
    (ft : Option String)
    (contrib : List PartRow → MatchRow → Option String → List (K × Bool))
    (acc : JobState K) (m : MatchRow) (h : aggWF acc.agg) :
    aggWF (jobStep jobid ft contrib acc m).agg :=
  foldl_upsertOne_wf _ _ h

theorem runJob_wf {K : Type _} [DecidableEq K] (jobid patchArg : String)
    (ft : Option String)
    (contrib : List PartRow → MatchRow → Option String → List (K × Bool))
    (st : JobState K) (h : aggWF st.agg) :
    aggWF (runJob jobid patchArg ft contrib st).agg := by
  rw [runJob]
  generalize pendingMatches jobid patchArg st = l
  induction l generalizing st with
  | nil => exact h
  | cons m ms ih =>
      rw [List.foldl_cons]
      exact ih _ (jobStep_wf jobid ft contrib st m h)

/-- The three aggregate counter tables of the store: agg_champ_role,
agg_matchup_role and agg_synergy_role. -/
structure AggTables where
  champ : AggTable ChampRoleKey
  matchup : AggTable MatchupKey
  synergy : AggTable SynergyKey

/-- Counter-mutating operations reachable in the system: the single-row
increments upsert_agg and upsert_matchup_role of src/storage.py, and the
three batched backfill runs (champ-role, matchups, synergy; each over
whatever raw rows and ledger the store holds at that point).
agg_synergy_role has no single-row increment: src/build_synergy.py is its
only writer. -/
inductive AggOp where
  | incrChamp (patch : String) (tier : Option String) (role : String)
      (champ : ℤ) (win : Bool) : AggOp
  | incrMatchup (patch : String) (tier : Option String) (my_role enemy_role : String)
      (my_champ enemy_champ : ℤ) (win : Bool) : AggOp
  | champBackfill (patchArg tierArg : String) (ms : List MatchRow)
      (ps : List PartRow) (done : List (String × String)) : AggOp
  | matchupBackfill (patchArg tierArg : String) (ms : List MatchRow)
      (ps : List PartRow) (done : List (String × String)) : AggOp
  | synergyBackfill (patchArg tierArg : String) (ms : List MatchRow)
      (ps : List PartRow) (done : List (String × String)) : AggOp

/-- Effect of one operation on the aggregate tables.  upsert_agg and
upsert_matchup_role insert (games 1, wins 0 or 1) with upsert-add conflict
resolution; a backfill run folds its job over the raw rows it is given. -/
def applyAggOp (s : AggTables) : AggOp → AggTables
  | .incrChamp p t r c w =>
      { s with champ := upsertAdd s.champ (p, t, r, c) 1 (if w then 1 else 0) }
  | .incrMatchup p t mr er mc ec w =>
      { s with matchup := upsertAdd s.matchup (p, t, mr, er, mc, ec) 1 (if w then 1 else 0) }
  | .champBackfill pa ta ms ps done =>
      { s with champ := (runChampRoleJob pa ta ⟨ms, ps, s.champ, done⟩).agg }
  | .matchupBackfill pa ta ms ps done =>
      { s with matchup := (runMatchupJob pa ta ⟨ms, ps, s.matchup, done⟩).agg }
  | .synergyBackfill pa ta ms ps done =>
      { s with synergy := (runSynergyJob pa ta ⟨ms, ps, s.synergy, done⟩).agg }

/-- C9: wins never exceed games.  Starting from any state whose aggregate
rows all satisfy wins ≤ games, every sequence of reachable counter operations
(single-row increments, which add 1 to games and at most 1 to wins, and the
three batched backfill flushes, whose per-key deltas add one game per
contribution and at most one win) preserves the invariant on every row of all
three tables. -/
theorem agg_wins_le_games_invariant (s0 : AggTables) (ops : List AggOp)
    (h : aggWF s0.champ ∧ aggWF s0.matchup ∧ aggWF s0.synergy) :
    aggWF (ops.foldl applyAggOp s0).champ ∧
      aggWF (ops.foldl applyAggOp s0).matchup ∧
      aggWF (ops.foldl applyAggOp s0).synergy := by
  induction ops generalizing s0 with
  | nil => exact h
  | cons op ops ih =>
      rw [List.foldl_cons]
      apply ih
      obtain ⟨hc, hm, hy⟩ := h
      cases op with
      | incrChamp p t r c w =>
          exact ⟨upsertAdd_wf hc _ (by cases w <;> simp), hm, hy⟩
      | incrMatchup p t mr er mc ec w =>
          exact ⟨hc, upsertAdd_wf hm _ (by cases w <;> simp), hy⟩
      | champBackfill pa ta ms ps done =>
          exact ⟨runJob_wf _ _ _ _ ⟨ms, ps, s0.champ, done⟩ hc, hm, hy⟩
      | matchupBackfill pa ta ms ps done =>
          exact ⟨hc, runJob_wf _ _ _ _ ⟨ms, ps, s0.matchup, done⟩ hm, hy⟩
      | synergyBackfill pa ta ms ps done =>
          exact ⟨hc, hm, runJob_wf _ _ _ _ ⟨ms, ps, s0.synergy, done⟩ hy⟩

/-- Witness for the counter invariant at a concrete input: an empty store, one
single-row increment, a champ-role backfill and a synergy backfill over a
one-match store. -/
theorem agg_wins_le_games_invariant_witness :
    aggWF (([AggOp.incrChamp "16.2" (some "GOLD") "TOP" 7 true,
        AggOp.champBackfill "ALL" "ALL"
          [⟨"M1", 10, "16.2", some "GOLD"⟩]
          [⟨"M1", 100, "TOP", 7, true⟩, ⟨"M1", 200, "TOP", 8, false⟩]
          [],
        AggOp.synergyBackfill "ALL" "ALL"
          [⟨"M1", 10, "16.2", some "GOLD"⟩]
          [⟨"M1", 100, "TOP", 7, true⟩, ⟨"M1", 100, "JUNGLE", 9, true⟩,
            ⟨"M1", 200, "TOP", 8, false⟩]
          []].foldl applyAggOp ⟨[], [], []⟩).champ) ∧
    aggWF (([AggOp.incrChamp "16.2" (some "GOLD") "TOP" 7 true,
        AggOp.champBackfill "ALL" "ALL"
          [⟨"M1", 10, "16.2", some "GOLD"⟩]
          [⟨"M1", 100, "TOP", 7, true⟩, ⟨"M1", 200, "TOP", 8, false⟩]
          [],
        AggOp.synergyBackfill "ALL" "ALL"
          [⟨"M1", 10, "16.2", some "GOLD"⟩]
          [⟨"M1", 100, "TOP", 7, true⟩, ⟨"M1", 100, "JUNGLE", 9, true⟩,
            ⟨"M1", 200, "TOP", 8, false⟩]
          []].foldl applyAggOp ⟨[], [], []⟩).matchup) ∧
    aggWF (([AggOp.incrChamp "16.2" (some "GOLD") "TOP" 7 true,
        AggOp.champBackfill "ALL" "ALL"
          [⟨"M1", 10, "16.2", some "GOLD"⟩]
          [⟨"M1", 100, "TOP", 7, true⟩, ⟨"M1", 200, "TOP", 8, false⟩]
          [],
        AggOp.synergyBackfill "ALL" "ALL"
          [⟨"M1", 10, "16.2", some "GOLD"⟩]
          [⟨"M1", 100, "TOP", 7, true⟩, ⟨"M1", 100, "JUNGLE", 9, true⟩,
            ⟨"M1", 200, "TOP", 8, false⟩]
          []].foldl applyAggOp ⟨[], [], []⟩).synergy) :=
  agg_wins_le_games_invariant ⟨[], [], []⟩ _
    (by refine ⟨?_, ?_, ?_⟩ <;> intro r hr <;> cases hr)

/-! ## Enemy role inference (src/recommender.py)

guess_enemy_roles_iterative assigns roles to up to five enemy picks by
repeatedly electing a best champion per remaining role, resolving conflicts
(one champion winning several roles) by that champion's best ratio among the
roles it won, and removing assigned champions and roles.  Role-fit ratios are
computed as exact rationals here; the Python computes the same quotients in
floating point. -/

/-- Historical role distribution of one champion: role to games, from
champ_role_distribution (a python dict, modeled as its item list). -/
abbrev RoleDist := List (String × ℕ)

/-- Embedding of _champ_total_games: the summed games of a distribution. -/
def champTotalGames (m : RoleDist) : ℕ :=
  (m.map (·.2)).sum

/-- Embedding of _role_ratio: games at the role over total games, zero when
the total is zero. -/
def roleRatio (m : RoleDist) (role : String) : ℚ :=
  if champTotalGames m = 0 then 0
  else ((m.lookup role).getD 0 : ℚ) / (champTotalGames m : ℚ)

/-- Python tuple comparison key > best_key for the four-component winner key
(ratio, role games, total games, negated champ id). -/
def key4GT (a b : ℚ × ℕ × ℕ × ℤ) : Bool :=
  if a.1 ≠ b.1 then a.1 > b.1
  else if a.2.1 ≠ b.2.1 then a.2.1 > b.2.1
  else if a.2.2.1 ≠ b.2.2.1 then a.2.2.1 > b.2.2.1
  else a.2.2.2 > b.2.2.2

/-- Python tuple comparison for the five-component conflict key
(ratio, role games, total games, negated role index, negated champ id). -/
def key5GT (a b : ℚ × ℕ × ℕ × ℤ × ℤ) : Bool :=
  if a.1 ≠ b.1 then a.1 > b.1
  else if a.2.1 ≠ b.2.1 then a.2.1 > b.2.1
  else if a.2.2.1 ≠ b.2.2.1 then a.2.2.1 > b.2.2.1
  else if a.2.2.2.1 ≠ b.2.2.2.1 then a.2.2.2.1 > b.2.2.2.1
  else a.2.2.2.2 > b.2.2.2.2

/-- The best-is-None-or-key-greater running maximum of the Python loops:
first element wins ties, a strictly greater key replaces. -/
def pickBest {α : Type _} {κ : Type _} (key : α → κ) (gt : κ → κ → Bool)
    (xs : List α) : Option α :=
  xs.foldl (fun best x =>
    match best with
    | none => some x
    | some b => if gt (key x) (key b) then some x else best) none

/-- Winner key of one champion for one role (loop 1 of the iteration). -/
def winnerKey (dist : ℤ → RoleDist) (role : String) (cid : ℤ) : ℚ × ℕ × ℕ × ℤ :=
  let m := dist cid
  let total := champTotalGames m
  ((if 0 < total then roleRatio m role else 0), (m.lookup role).getD 0, total, -cid)

/-- Loop 1: the provisional winner champion of every remaining role, in
remaining-role order (the insertion order of the role_winner dict). -/
def roleWinners (dist : ℤ → RoleDist) (remaining_roles : List String)
    (remaining_champs : List ℤ) : List (String × ℤ) :=
  remaining_roles.filterMap (fun role =>
    (pickBest (winnerKey dist role) key4GT remaining_champs).map (fun cid => (role, cid)))

/-- Loop 2: group the winner map by champion (defaultdict of lists keyed in
first-win order). -/
def champWins (rw : List (String × ℤ)) : List (ℤ × List String) :=
  rw.foldl (fun acc rc =>
    match acc.lookup rc.2 with
    | none => acc ++ [(rc.2, [rc.1])]
    | some _ => acc.map (fun e => if e.1 = rc.2 then (e.1, e.2 ++ [rc.1]) else e)) []

/-- Loop 3 conflict resolution: among the roles one champion won, keep the one
with the best five-component key; UNKNOWN when the champion has no data. -/
def chooseRole (dist : ℤ → RoleDist) (remaining_roles : List String)
    (cid : ℤ) (roles_won : List String) : String :=
  let m := dist cid
  let total := champTotalGames m
  if total = 0 then "UNKNOWN"
  else
    (pickBest (fun r => (roleRatio m r, (m.lookup r).getD 0, total,
        -(remaining_roles.indexOf r : ℤ), -cid)) key5GT roles_won).getD "UNKNOWN"

/-- Embedding of _best_role_for_champ: the best-ratio role of one champion
among the given roles, UNKNOWN without data. -/
def bestRoleForChamp (cid : ℤ) (dist : ℤ → RoleDist) (roles : List String) : String :=
  let m := dist cid
  let total := champTotalGames m
  if total = 0 then "UNKNOWN"
  else
    (pickBest (fun r => (roleRatio m r, (m.lookup r).getD 0, total,
        -(roles.indexOf r : ℤ), -cid)) key5GT roles).getD "UNKNOWN"

/-- Python dict assignment d[k] = v on an association list. -/
def dictAssign {α β : Type _} [DecidableEq α] (d : List (α × β)) (k : α) (v : β) :
    List (α × β) :=
  if (d.lookup k).isSome then
    d.map (fun e => if e.1 = k then (e.1, v) else e)
  else d ++ [(k, v)]

/-- State of the while loop of guess_enemy_roles_iterative. -/
structure GuessState where
  remaining_champs : List ℤ
  remaining_roles : List String
  assigned : List (ℤ × String)

/-- Loops 1 to 3 of one iteration: the conflict-resolved assignments of this
round (newly_assigned). -/
def guessNewly (dist : ℤ → RoleDist) (s : GuessState) : List (ℤ × String) :=
  (champWins (roleWinners dist s.remaining_roles s.remaining_champs)).filterMap (fun e =>
    if (s.assigned.lookup e.1).isSome then none
    else if ¬ e.1 ∈ s.remaining_champs then none
    else some (e.1, chooseRole dist s.remaining_roles e.1 e.2))

/-- The stuck branch of the iteration: force-assign the smallest remaining
champion its best remaining role. -/
def guessStepForced (dist : ℤ → RoleDist) (s : GuessState) : GuessState :=
  let cid := (s.remaining_champs.min?).getD 0
  let role := bestRoleForChamp cid dist s.remaining_roles
  { remaining_champs := s.remaining_champs.erase cid
    remaining_roles := s.remaining_roles.erase role
    assigned := dictAssign s.assigned cid role }

/-- Step 4 of the iteration: commit the round assignments and drop the
assigned champions and the assigned still-remaining roles. -/
def guessStepAssign (dist : ℤ → RoleDist) (s : GuessState) : GuessState :=
  let newly := guessNewly dist s
  let assigned2 := newly.foldl (fun d e => dictAssign d e.1 e.2) s.assigned
  let champs_set := newly.map (·.1)
  let roles_set := (newly.filter (fun e => e.2 ∈ s.remaining_roles)).map (·.2)
  { remaining_champs := s.remaining_champs.filter (fun c => ¬ c ∈ champs_set)
    remaining_roles := s.remaining_roles.filter (fun r => ¬ r ∈ roles_set)
    assigned := assigned2 }

/-- One-to-one embedding of the guarded while loop (guard bounds it to 50
iterations, carried here as fuel). -/
def guessLoop (dist : ℤ → RoleDist) : ℕ → GuessState → GuessState
  | 0, s => s
  | fuel + 1, s =>
      if s.remaining_champs.isEmpty || s.remaining_roles.isEmpty then s
      else if (guessNewly dist s).isEmpty then
        guessLoop dist fuel (guessStepForced dist s)
      else
        guessLoop dist fuel (guessStepAssign dist s)

/-- Deduplication keeping first occurrences, as the ids comprehension does. -/
def dedupFirst (l : List ℤ) : List ℤ :=
  l.foldl (fun acc x => if x ∈ acc then acc else acc ++ [x]) []

/-- Embedding of guess_enemy_roles_iterative from src/recommender.py: the
returned dict as an association list over the deduplicated nonzero ids. -/
def guess_enemy_roles_iterative (enemy_ids : List ℤ) (dist : ℤ → RoleDist) :
    List (ℤ × String) :=
  let ids := dedupFirst (enemy_ids.filter (fun x => x ≠ 0))
  if ids.isEmpty then []
  else
    let final := guessLoop dist 50 ⟨ids, ROLES, []⟩
    let assigned2 := final.remaining_champs.foldl (fun d cid =>
      if (d.lookup cid).isSome then d
      else dictAssign d cid (bestRoleForChamp cid dist ROLES)) final.assigned
    ids.map (fun cid => (cid, (assigned2.lookup cid).getD (bestRoleForChamp cid dist ROLES)))

/-- Modelled from the spec wording for the assignment objective: the score of
a pick-to-role mapping is the sum of each pick's historical role-fit ratio.
Used only to compare the code's greedy result against this objective. -/
def roleFitSum (dist : ℤ → RoleDist) (assign : List (ℤ × String)) : ℚ :=
  (assign.map (fun e => roleRatio (dist e.1) e.2)).sum

/-- Distribution of the two-pick example of the specification: pick 103
played 90 percent JUNGLE and 10 percent TOP, pick 268 played 70 percent TOP
and 30 percent JUNGLE. -/
def distExample : ℤ → RoleDist := fun c =>
  if c = 103 then [("JUNGLE", 90), ("TOP", 10)]
  else if c = 268 then [("TOP", 70), ("JUNGLE", 30)]
  else []

/-- Distribution on which the greedy iteration is suboptimal: pick 10 is an
even TOP and JUNGLE split, pick 20 is slightly behind on both but has a small
MIDDLE sideline. -/
def distGreedy : ℤ → RoleDist := fun c =>
  if c = 10 then [("TOP", 50), ("JUNGLE", 50)]
  else if c = 20 then [("TOP", 45), ("JUNGLE", 45), ("MIDDLE", 10)]
  else []

set_option maxRecDepth 100000 in
/-- C2 counterexample: the inference is a greedy iteration, not the
maximum-sum assignment.  On distGreedy both contested roles are won by pick
10, which then takes TOP, leaving pick 20 its MIDDLE sideline: fit sum 3/5.
The injective mapping 10 to JUNGLE and 20 to TOP scores 19/20, strictly more,
so the returned mapping does not maximize the sum of role-fit ratios. -/
theorem guess_enemy_roles_not_sum_optimal :
    guess_enemy_roles_iterative [10, 20] distGreedy = [(10, "TOP"), (20, "MIDDLE")] ∧
    ("JUNGLE" : String) ≠ "TOP" ∧
    roleFitSum distGreedy [(10, "TOP"), (20, "MIDDLE")]
      < roleFitSum distGreedy [(10, "JUNGLE"), (20, "TOP")] := by
  refine ⟨by with_unfolding_all decide, by decide, by with_unfolding_all decide⟩

set_option maxRecDepth 100000 in
/-- C2 amended: the enemy role inference computes its injective assignment by
iterative greedy per-role election with conflict resolution, which does not
in general maximize the sum of role-fit ratios; on the example input of the
specification it returns 103 to JUNGLE and 268 to TOP, whose role-fit sum is
8/5, the value the specification quotes. -/
theorem guess_enemy_roles_example_103_268 :
    guess_enemy_roles_iterative [103, 268] distExample
        = [(103, "JUNGLE"), (268, "TOP")] ∧
    roleFitSum distExample [(103, "JUNGLE"), (268, "TOP")] = 8 / 5 := by
  refine ⟨by with_unfolding_all decide, by with_unfolding_all decide⟩

theorem pickBest_go_mem {α κ : Type _} (key : α → κ) (gt : κ → κ → Bool) :
    ∀ (xs : List α) (acc : Option α) (x : α),
      xs.foldl (fun best y =>
        match best with
        | none => some y
        | some b => if gt (key y) (key b) then some y else best) acc = some x →
      x ∈ xs ∨ acc = some x := by
  intro xs
  induction xs with
  | nil => intro acc x h; right; exact h
  | cons y ys ih =>
      intro acc x h
      rw [List.foldl_cons] at h
      rcases ih _ x h with hmem | hacc
      · left; exact List.mem_cons_of_mem _ hmem
      · cases acc with
        | none =>
            left
            have hyx : y = x := Option.some.inj hacc
            rw [← hyx]
            exact List.mem_cons_self _ _
        | some b =>
            by_cases hgt : gt (key y) (key b) = true
            · simp only [hgt, if_true] at hacc
              left
              rw [Option.some_inj] at hacc
              rw [← hacc]
              exact List.mem_cons_self _ _
            · simp only [hgt, if_false] at hacc
              right
              exact hacc

theorem pickBest_mem {α κ : Type _} {key : α → κ} {gt : κ → κ → Bool}
    {xs : List α} {x : α} (h : pickBest key gt xs = some x) : x ∈ xs := by
  rcases pickBest_go_mem key gt xs none x h with hm | hc
  · exact hm
  · cases hc

theorem pickBest_go_isSome {α κ : Type _} (key : α → κ) (gt : κ → κ → Bool) :
    ∀ (xs : List α) (acc : Option α), acc.isSome →
      (xs.foldl (fun best y =>
        match best with
        | none => some y
        | some b => if gt (key y) (key b) then some y else best) acc).isSome := by
  intro xs
  induction xs with
  | nil => intro acc h; exact h
  | cons y ys ih =>
      intro acc h
      rw [List.foldl_cons]
      apply ih
      cases acc with
      | none => cases h
      | some b =>
          by_cases hgt : gt (key y) (key b) = true
          · simp [hgt]
          · simp [hgt]

theorem pickBest_isSome {α κ : Type _} (key : α → κ) (gt : κ → κ → Bool)
    {xs : List α} (h : xs ≠ []) : (pickBest key gt xs).isSome := by
  cases xs with
  | nil => exact absurd rfl h
  | cons y ys =>
      unfold pickBest
      rw [List.foldl_cons]
      apply pickBest_go_isSome
      rfl

theorem roleWinners_mem {dist : ℤ → RoleDist} {roles : List String}
    {champs : List ℤ} {rc : String × ℤ}
    (h : rc ∈ roleWinners dist roles champs) : rc.1 ∈ roles ∧ rc.2 ∈ champs := by
  unfold roleWinners at h
  rw [List.mem_filterMap] at h
  obtain ⟨role, hrole, heq⟩ := h
  cases hpb : pickBest (winnerKey dist role) key4GT champs with
  | none => rw [hpb] at heq; cases heq
  | some cid =>
      rw [hpb] at heq
      have h9 : (role, cid) = rc := Option.some.inj heq
      rw [← h9]
      exact ⟨hrole, pickBest_mem hpb⟩

theorem roleWinners_functional {dist : ℤ → RoleDist} {roles : List String}
    {champs : List ℤ} (hnd : roles.Nodup) {r : String} {c1 c2 : ℤ}
    (h1 : (r, c1) ∈ roleWinners dist roles champs)
    (h2 : (r, c2) ∈ roleWinners dist roles champs) : c1 = c2 := by
  induction roles with
  | nil => cases h1
  | cons r0 rest ih =>
      have hnd2 : rest.Nodup := hnd.of_cons
      have hr0 : r0 ∉ rest := by
        intro hmem
        exact (List.nodup_cons.mp hnd).1 hmem
      unfold roleWinners at h1 h2
      rw [List.filterMap_cons] at h1 h2
      cases hpb : (pickBest (winnerKey dist r0) key4GT champs).map
          (fun cid => (r0, cid)) with
      | none =>
          rw [hpb] at h1 h2
          exact ih hnd2 h1 h2
      | some p =>
          rw [hpb] at h1 h2
          have hp1 : p.1 = r0 := by
            cases hq : pickBest (winnerKey dist r0) key4GT champs with
            | none => rw [hq] at hpb; cases hpb
            | some cid =>
                rw [hq] at hpb
                have h9 : (r0, cid) = p := Option.some.inj hpb
                rw [← h9]
          rcases List.mem_cons.mp h1 with he1 | hm1
          · rcases List.mem_cons.mp h2 with he2 | hm2
            · exact congrArg Prod.snd (he1.trans he2.symm)
            · exfalso
              have hmem : r ∈ rest := (roleWinners_mem hm2).1
              have hr_eq : r = r0 := by
                have h' : p.1 = r := congrArg Prod.fst he1.symm
                rw [hp1] at h'
                exact h'.symm
              rw [hr_eq] at hmem
              exact hr0 hmem
          · rcases List.mem_cons.mp h2 with he2 | hm2
            · exfalso
              have hmem : r ∈ rest := (roleWinners_mem hm1).1
              have hr_eq : r = r0 := by
                have h' : p.1 = r := congrArg Prod.fst he2.symm
                rw [hp1] at h'
                exact h'.symm
              rw [hr_eq] at hmem
              exact hr0 hmem
            · exact ih hnd2 hm1 hm2

theorem lookup_mem {β : Type _} {l : List (ℤ × β)} {k : ℤ} {v : β}
    (h : l.lookup k = some v) : (k, v) ∈ l := by
  induction l with
  | nil => cases h
  | cons x xs ih =>
      by_cases hk : (k == x.1) = true
      · simp only [List.lookup, hk] at h
        have hkx : k = x.1 := by simpa using hk
        have hvx : v = x.2 := by simpa using h.symm
        rw [hkx, hvx]
        exact List.mem_cons_self _ _
      · simp only [List.lookup, hk] at h
        exact List.mem_cons_of_mem _ (ih h)

theorem lookup_isSome_of_mem {β : Type _} {l : List (ℤ × β)} {e : ℤ × β}
    (h : e ∈ l) : (l.lookup e.1).isSome := by
  induction l with
  | nil => cases h
  | cons x xs ih =>
      by_cases hk : (e.1 == x.1) = true
      · simp [List.lookup, hk]
      · rcases List.mem_cons.mp h with he | hm
        · rw [he] at hk
          simp at hk
        · simp only [List.lookup, hk]
          exact ih hm

theorem lookup_none_key_ne {β : Type _} {l : List (ℤ × β)} {k : ℤ}
    (h : l.lookup k = none) : ∀ e ∈ l, e.1 ≠ k := by
  intro e he
  intro hk
  have := lookup_isSome_of_mem he
  rw [hk, h] at this
  cases this

/-- The grouping step of champWins (the defaultdict append). -/
def cwStep (acc : List (ℤ × List String)) (rc : String × ℤ) : List (ℤ × List String) :=
  match acc.lookup rc.2 with
  | none => acc ++ [(rc.2, [rc.1])]
  | some _ => acc.map (fun e => if e.1 = rc.2 then (e.1, e.2 ++ [rc.1]) else e)

theorem champWins_eq_foldl (rw : List (String × ℤ)) :
    champWins rw = rw.foldl cwStep [] := rfl

theorem cwStep_pred {Q : String → ℤ → Prop} {acc : List (ℤ × List String)}
    (ha : ∀ e ∈ acc, ∀ r ∈ e.2, Q r e.1) {rc : String × ℤ} (hrc : Q rc.1 rc.2) :
    ∀ e ∈ cwStep acc rc, ∀ r ∈ e.2, Q r e.1 := by
  unfold cwStep
  cases hl : acc.lookup rc.2 with
  | none =>
      intro e he r hr
      rcases List.mem_append.mp he with h1 | h2
      · exact ha e h1 r hr
      · rw [List.mem_singleton] at h2
        rw [h2] at hr
        rw [List.mem_singleton] at hr
        rw [h2, hr]
        exact hrc
  | some _ =>
      intro e he r hr
      rw [List.mem_map] at he
      obtain ⟨e0, he0, heq⟩ := he
      by_cases hk : e0.1 = rc.2
      · rw [if_pos hk] at heq
        rw [← heq] at hr ⊢
        rcases List.mem_append.mp hr with h1 | h2
        · exact ha e0 he0 r h1
        · rw [List.mem_singleton] at h2
          rw [h2]
          simpa [hk] using hrc
      · rw [if_neg hk] at heq
        rw [← heq] at hr ⊢
        exact ha e0 he0 r hr

theorem champWins_go_pred {Q : String → ℤ → Prop} :
    ∀ (rw : List (String × ℤ)) (acc : List (ℤ × List String)),
      (∀ e ∈ acc, ∀ r ∈ e.2, Q r e.1) → (∀ rc ∈ rw, Q rc.1 rc.2) →
      ∀ e ∈ rw.foldl cwStep acc, ∀ r ∈ e.2, Q r e.1 := by
  intro rw
  induction rw with
  | nil => intro acc ha _; exact ha
  | cons rc rest ih =>
      intro acc ha hq
      rw [List.foldl_cons]
      exact ih _ (cwStep_pred ha (hq rc (List.mem_cons_self _ _)))
        (fun x hx => hq x (List.mem_cons_of_mem _ hx))

theorem champWins_pred (rw : List (String × ℤ)) :
    ∀ e ∈ champWins rw, ∀ r ∈ e.2, (r, e.1) ∈ rw := by
  rw [champWins_eq_foldl]
  exact champWins_go_pred (Q := fun r c => (r, c) ∈ rw) rw []
    (by intro e he; cases he) (by intro rc hrc; exact hrc)

theorem cwStep_keys_nodup {acc : List (ℤ × List String)}
    (h : (acc.map (·.1)).Nodup) (rc : String × ℤ) :
    ((cwStep acc rc).map (·.1)).Nodup := by
  unfold cwStep
  cases hl : acc.lookup rc.2 with
  | none =>
      rw [List.map_append]
      rw [List.nodup_append]
      refine ⟨h, by simp, ?_⟩
      intro a ha hb
      simp only [List.map_cons, List.map_nil, List.mem_singleton] at hb
      rw [List.mem_map] at ha
      obtain ⟨e, he, heq⟩ := ha
      exact lookup_none_key_ne hl e he (heq.trans hb)
  | some _ =>
      have hkeys : ((acc.map (fun e =>
          if e.1 = rc.2 then (e.1, e.2 ++ [rc.1]) else e)).map (·.1))
          = acc.map (·.1) := by
        rw [List.map_map]
        apply List.map_congr_left
        intro e he
        by_cases hk : e.1 = rc.2 <;> simp [hk]
      rw [hkeys]
      exact h

theorem champWins_go_keys_nodup :
    ∀ (rw : List (String × ℤ)) (acc : List (ℤ × List String)),
      (acc.map (·.1)).Nodup → ((rw.foldl cwStep acc).map (·.1)).Nodup := by
  intro rw
  induction rw with
  | nil => intro acc h; exact h
  | cons rc rest ih =>
      intro acc h
      rw [List.foldl_cons]
      exact ih _ (cwStep_keys_nodup h rc)

theorem champWins_keys_nodup (rw : List (String × ℤ)) :
    ((champWins rw).map (·.1)).Nodup := by
  rw [champWins_eq_foldl]
  exact champWins_go_keys_nodup rw [] (by simp)

theorem cwStep_entries_ne_nil {acc : List (ℤ × List String)}
    (h : ∀ e ∈ acc, e.2 ≠ []) (rc : String × ℤ) :
    ∀ e ∈ cwStep acc rc, e.2 ≠ [] := by
  unfold cwStep
  cases hl : acc.lookup rc.2 with
  | none =>
      intro e he
      rcases List.mem_append.mp he with h1 | h2
      · exact h e h1
      · rw [List.mem_singleton] at h2
        rw [h2]
        simp
  | some _ =>
      intro e he
      rw [List.mem_map] at he
      obtain ⟨e0, he0, heq⟩ := he
      by_cases hk : e0.1 = rc.2
      · rw [if_pos hk] at heq
        rw [← heq]
        simp
      · rw [if_neg hk] at heq
        rw [← heq]
        exact h e0 he0

theorem champWins_entries_ne_nil (rw : List (String × ℤ)) :
    ∀ e ∈ champWins rw, e.2 ≠ [] := by
  rw [champWins_eq_foldl]
  have hgen : ∀ (l : List (String × ℤ)) (acc : List (ℤ × List String)),
      (∀ e ∈ acc, e.2 ≠ []) → ∀ e ∈ l.foldl cwStep acc, e.2 ≠ [] := by
    intro l
    induction l with
    | nil => intro acc h; exact h
    | cons rc rest ih =>
        intro acc h
        rw [List.foldl_cons]
        exact ih _ (cwStep_entries_ne_nil h rc)
  exact hgen rw [] (by intro e he; cases he)

theorem cwStep_length (acc : List (ℤ × List String)) (rc : String × ℤ) :
    acc.length ≤ (cwStep acc rc).length := by
  unfold cwStep
  cases acc.lookup rc.2 with
  | none => simp
  | some _ => simp

theorem champWins_ne_nil {rw : List (String × ℤ)} (h : rw ≠ []) :
    champWins rw ≠ [] := by
  have hgen : ∀ (l : List (String × ℤ)) (acc : List (ℤ × List String)),
      acc.length ≤ (l.foldl cwStep acc).length := by
    intro l
    induction l with
    | nil => intro acc; exact le_rfl
    | cons rc rest ih =>
        intro acc
        rw [List.foldl_cons]
        exact le_trans (cwStep_length acc rc) (ih _)
  cases rw with
  | nil => exact absurd rfl h
  | cons rc rest =>
      rw [champWins_eq_foldl, List.foldl_cons]
      intro hnil
      have h1 : (cwStep [] rc).length ≤ 0 := by
        rw [← List.length_eq_zero.mpr hnil]
        exact hgen rest (cwStep [] rc)
      have h2 : (cwStep [] rc).length = 1 := by
        unfold cwStep
        simp [List.lookup]
      omega

theorem pickBest_getD_mem {α κ : Type _} (key : α → κ) (gt : κ → κ → Bool)
    {xs : List α} (hne : xs ≠ []) (d : α) :
    (pickBest key gt xs).getD d ∈ xs := by
  cases hpb : pickBest key gt xs with
  | none =>
      have hs := pickBest_isSome key gt hne
      rw [hpb] at hs
      cases hs
  | some x =>
      exact pickBest_mem hpb

theorem chooseRole_mem {dist : ℤ → RoleDist} {roles : List String} {cid : ℤ}
    {roles_won : List String} (htot : champTotalGames (dist cid) ≠ 0)
    (hne : roles_won ≠ []) :
    chooseRole dist roles cid roles_won ∈ roles_won := by
  simp only [chooseRole, if_neg htot]
  exact pickBest_getD_mem _ _ hne _

theorem dictAssign_fresh_append {β : Type _} {d : List (ℤ × β)} {k : ℤ} {v : β}
    (h : d.lookup k = none) : dictAssign d k v = d ++ [(k, v)] := by
  unfold dictAssign
  rw [h]
  rfl

theorem foldl_dictAssign_fresh {β : Type _} :
    ∀ (newly : List (ℤ × β)) (d : List (ℤ × β)),
      (∀ e ∈ newly, d.lookup e.1 = none) → (newly.map (·.1)).Nodup →
      newly.foldl (fun d e => dictAssign d e.1 e.2) d = d ++ newly := by
  intro newly
  induction newly with
  | nil => intro d _ _; simp
  | cons e rest ih =>
      intro d hfresh hnd
      rw [List.foldl_cons]
      have hde : dictAssign d e.1 e.2 = d ++ [e] := by
        rw [dictAssign_fresh_append (hfresh e (List.mem_cons_self _ _))]
      rw [hde]
      have hkey : e.1 ∉ rest.map (·.1) := by
        rw [List.map_cons] at hnd
        exact (List.nodup_cons.mp hnd).1
      have hfresh2 : ∀ x ∈ rest, (d ++ [e]).lookup x.1 = none := by
        intro x hx
        rw [lookup_append_pairs]
        have h1 : d.lookup x.1 = none := hfresh x (List.mem_cons_of_mem _ hx)
        have h2 : ([e] : List (ℤ × β)).lookup x.1 = none := by
          have hne : (x.1 == e.1) = false := by
            rw [beq_eq_false_iff_ne]
            intro hcontra
            exact hkey (hcontra ▸ List.mem_map_of_mem (·.1) hx)
          simp [List.lookup, hne]
        rw [h1, h2]
        rfl
      have hnd2 : (rest.map (·.1)).Nodup := by
        rw [List.map_cons] at hnd
        exact (List.nodup_cons.mp hnd).2
      rw [ih (d ++ [e]) hfresh2 hnd2]
      simp

theorem dedupFirst_go_nodup :
    ∀ (l : List ℤ) (acc : List ℤ), acc.Nodup →
      (l.foldl (fun acc x => if x ∈ acc then acc else acc ++ [x]) acc).Nodup := by
  intro l
  induction l with
  | nil => intro acc h; exact h
  | cons x xs ih =>
      intro acc h
      rw [List.foldl_cons]
      apply ih
      by_cases hx : x ∈ acc
      · rw [if_pos hx]; exact h
      · rw [if_neg hx]
        rw [List.nodup_append]
        exact ⟨h, List.nodup_singleton x, by
          intro a ha hb
          rw [List.mem_singleton] at hb
          rw [hb] at ha
          exact hx ha⟩

theorem dedupFirst_nodup (l : List ℤ) : (dedupFirst l).Nodup :=
  dedupFirst_go_nodup l [] List.nodup_nil

theorem filter_not_mem_length {α : Type _} [DecidableEq α] {l sub : List α}
    (hl : l.Nodup) (hsub : sub.Nodup) (hss : ∀ x ∈ sub, x ∈ l) :
    (l.filter (fun x => ¬ x ∈ sub)).length + sub.length = l.length := by
  have hsplit := List.length_eq_countP_add_countP (p := fun x => decide (x ∈ sub)) l
  have hc1 : List.countP (fun x => decide (x ∈ sub)) l
      = (l.filter (fun x => decide (x ∈ sub))).length :=
    List.countP_eq_length_filter _ l
  have hc2 : List.countP (fun a => ¬ decide (a ∈ sub)) l
      = (l.filter (fun x => ¬ x ∈ sub)).length := by
    rw [List.countP_eq_length_filter]
    apply congrArg List.length
    apply List.filter_congr
    intro a _
    by_cases h : a ∈ sub <;> simp [h]
  have hfl : (l.filter (fun x => decide (x ∈ sub))).length = sub.length := by
    have hmemsub : ∀ x, x ∈ l.filter (fun x => decide (x ∈ sub)) ↔ x ∈ sub := by
      intro x
      rw [List.mem_filter]
      constructor
      · intro ⟨_, h2⟩
        simpa using h2
      · intro hx
        exact ⟨hss x hx, by simpa using hx⟩
    have hnodupf : (l.filter (fun x => decide (x ∈ sub))).Nodup := hl.filter _
    have hle1 : (l.filter (fun x => decide (x ∈ sub))).length ≤ sub.length :=
      (List.subperm_of_subset hnodupf (fun x hx => (hmemsub x).mp hx)).length_le
    have hle2 : sub.length ≤ (l.filter (fun x => decide (x ∈ sub))).length :=
      (List.subperm_of_subset hsub (fun x hx => (hmemsub x).mpr hx)).length_le
    omega
  omega

theorem guessNewly_mem_facts {dist : ℤ → RoleDist} {s : GuessState}
    {e : ℤ × String} (h : e ∈ guessNewly dist s) :
    e.1 ∈ s.remaining_champs ∧ s.assigned.lookup e.1 = none ∧
    ∃ rs, rs ≠ [] ∧
      (∀ r ∈ rs, (r, e.1) ∈ roleWinners dist s.remaining_roles s.remaining_champs) ∧
      e.2 = chooseRole dist s.remaining_roles e.1 rs := by
  unfold guessNewly at h
  rw [List.mem_filterMap] at h
  obtain ⟨e0, he0, hf⟩ := h
  by_cases h1 : (s.assigned.lookup e0.1).isSome
  · rw [if_pos h1] at hf; cases hf
  · rw [if_neg h1] at hf
    by_cases h2 : e0.1 ∈ s.remaining_champs
    · rw [if_neg (by simpa using h2)] at hf
      have he : (e0.1, chooseRole dist s.remaining_roles e0.1 e0.2) = e :=
        Option.some.inj hf
      have hkey : e.1 = e0.1 := by rw [← he]
      have hval : e.2 = chooseRole dist s.remaining_roles e0.1 e0.2 := by rw [← he]
      refine ⟨hkey ▸ h2, ?_, e0.2, ?_, ?_, ?_⟩
      · rw [hkey]
        exact Option.not_isSome_iff_eq_none.mp h1
      · exact champWins_entries_ne_nil _ e0 he0
      · intro r hr
        rw [hkey]
        exact champWins_pred _ e0 he0 r hr
      · rw [hkey]
        exact hval
    · rw [if_pos (by simpa using h2)] at hf
      cases hf

theorem guessNewly_role_winner {dist : ℤ → RoleDist} {s : GuessState}
    {e : ℤ × String} (h : e ∈ guessNewly dist s)
    (htot : champTotalGames (dist e.1) ≠ 0) :
    (e.2, e.1) ∈ roleWinners dist s.remaining_roles s.remaining_champs := by
  obtain ⟨_, _, rs, hne, hmem, hch⟩ := guessNewly_mem_facts h
  rw [hch]
  exact hmem _ (chooseRole_mem htot hne)

theorem keys_sublist_of_filterMap {σ τ : Type _} (f : σ → Option τ)
    (kσ : σ → ℤ) (kτ : τ → ℤ) (hf : ∀ e y, f e = some y → kτ y = kσ e) :
    ∀ (l : List σ), ((l.filterMap f).map kτ).Sublist (l.map kσ) := by
  intro l
  induction l with
  | nil => simp
  | cons x xs ih =>
      rw [List.filterMap_cons]
      cases hx : f x with
      | none =>
          rw [List.map_cons]
          exact ih.cons _
      | some y =>
          rw [List.map_cons, List.map_cons, hf x y hx]
          exact ih.cons₂ _

theorem guessNewly_keys_nodup (dist : ℤ → RoleDist) (s : GuessState) :
    ((guessNewly dist s).map (·.1)).Nodup := by
  have hsub := keys_sublist_of_filterMap
    (fun e =>
      if (s.assigned.lookup e.1).isSome then none
      else if ¬ e.1 ∈ s.remaining_champs then none
      else some (e.1, chooseRole dist s.remaining_roles e.1 e.2))
    (·.1) (·.1)
    (by
      intro e y hf
      have hf2 : (if (s.assigned.lookup e.1).isSome then (none : Option (ℤ × String))
          else if ¬ e.1 ∈ s.remaining_champs then none
          else some (e.1, chooseRole dist s.remaining_roles e.1 e.2)) = some y := hf
      by_cases h1 : (s.assigned.lookup e.1).isSome
      · rw [if_pos h1] at hf2; cases hf2
      · rw [if_neg h1] at hf2
        by_cases h2 : e.1 ∈ s.remaining_champs
        · rw [if_neg (by simpa using h2)] at hf2
          have h3 := Option.some.inj hf2
          rw [← h3]
        · rw [if_pos (by simpa using h2)] at hf2; cases hf2)
    (champWins (roleWinners dist s.remaining_roles s.remaining_champs))
  exact (champWins_keys_nodup _).sublist hsub

theorem guessNewly_roles_nodup {dist : ℤ → RoleDist} {s : GuessState}
    (hroles : s.remaining_roles.Nodup)
    (hdata : ∀ c ∈ s.remaining_champs, 0 < champTotalGames (dist c)) :
    ((guessNewly dist s).map (·.2)).Nodup := by
  have hkeys := guessNewly_keys_nodup dist s
  have hnd : (guessNewly dist s).Nodup := hkeys.of_map _
  apply List.Nodup.map_on _ hnd
  intro e he e2 he2 heq
  have htot : champTotalGames (dist e.1) ≠ 0 := by
    have := hdata e.1 (guessNewly_mem_facts he).1
    omega
  have htot2 : champTotalGames (dist e2.1) ≠ 0 := by
    have := hdata e2.1 (guessNewly_mem_facts he2).1
    omega
  have hw1 := guessNewly_role_winner he htot
  have hw2 := guessNewly_role_winner he2 htot2
  rw [heq] at hw1
  have hkeq : e.1 = e2.1 := roleWinners_functional hroles hw1 hw2
  have h1 : e = (e.1, e.2) := rfl
  have h2 : e2 = (e2.1, e2.2) := rfl
  rw [h1, h2, hkeq, heq]

theorem roleWinners_ne_nil {dist : ℤ → RoleDist} {roles : List String}
    {champs : List ℤ} (hr : roles ≠ []) (hc : champs ≠ []) :
    roleWinners dist roles champs ≠ [] := by
  cases roles with
  | nil => exact absurd rfl hr
  | cons r0 rest =>
      unfold roleWinners
      rw [List.filterMap_cons]
      cases hpb : pickBest (winnerKey dist r0) key4GT champs with
      | none =>
          have := pickBest_isSome (winnerKey dist r0) key4GT hc
          rw [hpb] at this
          cases this
      | some cid => simp

theorem guessNewly_ne_nil {dist : ℤ → RoleDist} {s : GuessState}
    (hc : s.remaining_champs ≠ []) (hr : s.remaining_roles ≠ [])
    (hun : ∀ c ∈ s.remaining_champs, s.assigned.lookup c = none) :
    guessNewly dist s ≠ [] := by
  have hrw := @roleWinners_ne_nil dist s.remaining_roles s.remaining_champs hr hc
  have hcw := champWins_ne_nil hrw
  obtain ⟨e0, he0⟩ := List.exists_mem_of_ne_nil _ hcw
  have hrs := champWins_entries_ne_nil _ e0 he0
  obtain ⟨r0, hr0⟩ := List.exists_mem_of_ne_nil _ hrs
  have hwin : (r0, e0.1) ∈ roleWinners dist s.remaining_roles s.remaining_champs :=
    champWins_pred _ e0 he0 r0 hr0
  have hchamp : e0.1 ∈ s.remaining_champs := (roleWinners_mem hwin).2
  intro hnil
  unfold guessNewly at hnil
  rw [List.filterMap_eq_nil_iff] at hnil
  have := hnil e0 he0
  rw [if_neg (by rw [hun e0.1 hchamp]; simp)] at this
  rw [if_neg (by simpa using hchamp)] at this
  cases this

theorem lookup_eq_none_of_not_key {β : Type _} {l : List (ℤ × β)} {k : ℤ}
    (h : ¬ k ∈ l.map (·.1)) : l.lookup k = none := by
  induction l with
  | nil => rfl
  | cons x xs ih =>
      rw [List.map_cons, List.mem_cons] at h
      push_neg at h
      have hne : (k == x.1) = false := by
        rw [beq_eq_false_iff_ne]
        exact h.1
      simp only [List.lookup, hne]
      exact ih h.2

/-- Loop invariant of guess_enemy_roles_iterative for inputs whose picks all
have usable data: remaining lists stay duplicate-free and no larger on the
champion side, assigned roles are pairwise distinct and no longer remaining,
remaining champions are unassigned, and every input pick is either still
remaining or already assigned. -/
structure GuessInv (dist : ℤ → RoleDist) (ids0 : List ℤ) (s : GuessState) : Prop where
  champs_nodup : s.remaining_champs.Nodup
  roles_nodup : s.remaining_roles.Nodup
  champs_unassigned : ∀ c ∈ s.remaining_champs, s.assigned.lookup c = none
  assigned_roles_nodup : (s.assigned.map (·.2)).Nodup
  assigned_roles_out : ∀ e ∈ s.assigned, ¬ e.2 ∈ s.remaining_roles
  card_le : s.remaining_champs.length ≤ s.remaining_roles.length
  covers : ∀ c ∈ ids0, c ∈ s.remaining_champs ∨ (s.assigned.lookup c).isSome
  champs_data : ∀ c ∈ s.remaining_champs, 0 < champTotalGames (dist c)

theorem guessStepAssign_inv {dist : ℤ → RoleDist} {ids0 : List ℤ} {s : GuessState}
    (hinv : GuessInv dist ids0 s)
    (hc : s.remaining_champs ≠ []) (hr : s.remaining_roles ≠ []) :
    GuessInv dist ids0 (guessStepAssign dist s) ∧
    (guessStepAssign dist s).remaining_champs.length < s.remaining_champs.length := by
  have hnewly_ne : guessNewly dist s ≠ [] :=
    guessNewly_ne_nil hc hr hinv.champs_unassigned
  have hkeys : ((guessNewly dist s).map (·.1)).Nodup := guessNewly_keys_nodup dist s
  have hfresh : ∀ e ∈ guessNewly dist s, s.assigned.lookup e.1 = none :=
    fun e he => (guessNewly_mem_facts he).2.1
  have hkeysmem : ∀ k ∈ (guessNewly dist s).map (·.1), k ∈ s.remaining_champs := by
    intro k hk
    rw [List.mem_map] at hk
    obtain ⟨e, he, heq⟩ := hk
    rw [← heq]
    exact (guessNewly_mem_facts he).1
  have hrolesmem : ∀ e ∈ guessNewly dist s, e.2 ∈ s.remaining_roles := by
    intro e he
    have htot : champTotalGames (dist e.1) ≠ 0 := by
      have := hinv.champs_data e.1 (guessNewly_mem_facts he).1
      omega
    exact (roleWinners_mem (guessNewly_role_winner he htot)).1
  have hvals : ((guessNewly dist s).map (·.2)).Nodup :=
    guessNewly_roles_nodup hinv.roles_nodup hinv.champs_data
  have hvalsmem : ∀ r ∈ (guessNewly dist s).map (·.2), r ∈ s.remaining_roles := by
    intro r hrm
    rw [List.mem_map] at hrm
    obtain ⟨e, he, heq⟩ := hrm
    rw [← heq]
    exact hrolesmem e he
  have hfilter_self : (guessNewly dist s).filter (fun e => e.2 ∈ s.remaining_roles)
      = guessNewly dist s :=
    List.filter_eq_self.mpr (fun e he => by simpa using hrolesmem e he)
  have hassigned2 : (guessNewly dist s).foldl (fun d e => dictAssign d e.1 e.2) s.assigned
      = s.assigned ++ guessNewly dist s :=
    foldl_dictAssign_fresh _ _ hfresh hkeys
  have hchamps_eq : (guessStepAssign dist s).remaining_champs
      = s.remaining_champs.filter (fun c => ¬ c ∈ (guessNewly dist s).map (·.1)) := rfl
  have hroles_eq : (guessStepAssign dist s).remaining_roles
      = s.remaining_roles.filter (fun r => ¬ r ∈ (guessNewly dist s).map (·.2)) := by
    show s.remaining_roles.filter _ = _
    rw [hfilter_self]
  have hassign_eq : (guessStepAssign dist s).assigned
      = s.assigned ++ guessNewly dist s := hassigned2
  have hcc := filter_not_mem_length hinv.champs_nodup hkeys hkeysmem
  have hrr := filter_not_mem_length hinv.roles_nodup hvals hvalsmem
  have hlen_pos : 0 < (guessNewly dist s).length := List.length_pos.mpr hnewly_ne
  have hlen_keys : ((guessNewly dist s).map (·.1)).length = (guessNewly dist s).length :=
    List.length_map _ _
  have hlen_vals : ((guessNewly dist s).map (·.2)).length = (guessNewly dist s).length :=
    List.length_map _ _
  constructor
  · refine ⟨?_, ?_, ?_, ?_, ?_, ?_, ?_, ?_⟩
    · rw [hchamps_eq]; exact hinv.champs_nodup.filter _
    · rw [hroles_eq]; exact hinv.roles_nodup.filter _
    · intro c hcmem
      rw [hchamps_eq, List.mem_filter] at hcmem
      obtain ⟨hc1, hc2⟩ := hcmem
      rw [hassign_eq, lookup_append_pairs]
      rw [hinv.champs_unassigned c hc1]
      rw [lookup_eq_none_of_not_key (by simpa using hc2)]
      rfl
    · rw [hassign_eq, List.map_append]
      rw [List.nodup_append]
      refine ⟨hinv.assigned_roles_nodup, hvals, ?_⟩
      intro r hr1 hr2
      rw [List.mem_map] at hr1
      obtain ⟨e, he, heq⟩ := hr1
      exact hinv.assigned_roles_out e he (heq ▸ hvalsmem r hr2)
    · intro e hemem
      rw [hassign_eq] at hemem
      rw [hroles_eq]
      rcases List.mem_append.mp hemem with h1 | h2
      · intro hcontra
        rw [List.mem_filter] at hcontra
        exact hinv.assigned_roles_out e h1 hcontra.1
      · intro hcontra
        rw [List.mem_filter] at hcontra
        have : e.2 ∈ (guessNewly dist s).map (·.2) := List.mem_map_of_mem _ h2
        simp only [this] at hcontra
        simpa using hcontra.2
    · rw [hchamps_eq, hroles_eq]
      have := hinv.card_le
      omega
    · intro c hcmem
      rcases hinv.covers c hcmem with h1 | h2
      · by_cases hk : c ∈ (guessNewly dist s).map (·.1)
        · right
          rw [hassign_eq, lookup_append_pairs]
          rw [List.mem_map] at hk
          obtain ⟨e, he, heq⟩ := hk
          have := lookup_isSome_of_mem he
          rw [heq] at this
          cases hl : List.lookup c (guessNewly dist s) with
          | none => rw [hl] at this; cases this
          | some v =>
              cases List.lookup c s.assigned <;> simp [hl]
        · left
          rw [hchamps_eq, List.mem_filter]
          exact ⟨h1, by simpa using hk⟩
      · right
        rw [hassign_eq, lookup_append_pairs]
        cases hl : List.lookup c s.assigned with
        | none => rw [hl] at h2; cases h2
        | some v => simp [hl]
    · intro c hcmem
      rw [hchamps_eq, List.mem_filter] at hcmem
      exact hinv.champs_data c hcmem.1
  · rw [hchamps_eq]
    omega

theorem guessLoop_sound (dist : ℤ → RoleDist) (ids0 : List ℤ) :
    ∀ (fuel : ℕ) (s : GuessState), GuessInv dist ids0 s →
      s.remaining_champs.length ≤ fuel →
      (guessLoop dist fuel s).remaining_champs = [] ∧
        GuessInv dist ids0 (guessLoop dist fuel s) := by
  intro fuel
  induction fuel with
  | zero =>
      intro s hinv hlen
      have hnil : s.remaining_champs = [] := by
        cases h : s.remaining_champs with
        | nil => rfl
        | cons a l => rw [h] at hlen; simp at hlen
      exact ⟨hnil, hinv⟩
  | succ fuel ih =>
      intro s hinv hlen
      by_cases hc : s.remaining_champs = []
      · have hce : s.remaining_champs.isEmpty = true := by rw [hc]; rfl
        have hloop : guessLoop dist (fuel + 1) s = s := by
          simp only [guessLoop, hce, Bool.true_or, if_true]
        rw [hloop]
        exact ⟨hc, hinv⟩
      · by_cases hrn : s.remaining_roles = []
        · exfalso
          have := hinv.card_le
          rw [hrn] at this
          simp at this
          exact hc this
        · have hce : s.remaining_champs.isEmpty = false := by
            cases h : s.remaining_champs with
            | nil => exact absurd h hc
            | cons a l => rfl
          have hre : s.remaining_roles.isEmpty = false := by
            cases h : s.remaining_roles with
            | nil => exact absurd h hrn
            | cons a l => rfl
          have hnewly_ne : guessNewly dist s ≠ [] :=
            guessNewly_ne_nil hc hrn hinv.champs_unassigned
          have hne : (guessNewly dist s).isEmpty = false := by
            cases h : guessNewly dist s with
            | nil => exact absurd h hnewly_ne
            | cons a l => rfl
          have hloop : guessLoop dist (fuel + 1) s
              = guessLoop dist fuel (guessStepAssign dist s) := by
            simp only [guessLoop, hce, hre, hne, Bool.or_self, Bool.false_eq_true,
              if_false]
          obtain ⟨hinv2, hprog⟩ := guessStepAssign_inv hinv hc hrn
          rw [hloop]
          exact ih (guessStepAssign dist s) hinv2 (by omega)

/-- C5: for every input of at most five enemy picks that each have usable
historical role-distribution data (positive total games), the enemy role
inference never assigns the same role to two different picks: any two entries
of the returned assignment with different pick ids carry different roles. -/
theorem guess_enemy_roles_injective (enemy_ids : List ℤ) (dist : ℤ → RoleDist)
    (hlen : (dedupFirst (enemy_ids.filter (fun x => x ≠ 0))).length ≤ 5)
    (hdata : ∀ c ∈ dedupFirst (enemy_ids.filter (fun x => x ≠ 0)),
      0 < champTotalGames (dist c)) :
    ∀ p1 ∈ guess_enemy_roles_iterative enemy_ids dist,
      ∀ p2 ∈ guess_enemy_roles_iterative enemy_ids dist,
        p1.1 ≠ p2.1 → p1.2 ≠ p2.2 := by
  intro p1 hp1 p2 hp2 hne
  by_cases hempty : (dedupFirst (enemy_ids.filter (fun x => x ≠ 0))).isEmpty = true
  · simp only [guess_enemy_roles_iterative] at hp1
    rw [if_pos hempty] at hp1
    cases hp1
  · simp only [guess_enemy_roles_iterative] at hp1 hp2
    rw [if_neg hempty] at hp1 hp2
    have hinv0 : GuessInv dist (dedupFirst (enemy_ids.filter (fun x => x ≠ 0)))
        ⟨dedupFirst (enemy_ids.filter (fun x => x ≠ 0)), ROLES, []⟩ := by
      refine ⟨dedupFirst_nodup _, by show ROLES.Nodup; decide, fun c _ => rfl,
        by simp, ?_, ?_, fun c hc => Or.inl hc, hdata⟩
      · intro e he; cases he
      · show (dedupFirst (enemy_ids.filter (fun x => x ≠ 0))).length ≤ ROLES.length
        have h5 : ROLES.length = 5 := rfl
        omega
    obtain ⟨hfe, hfi⟩ := guessLoop_sound dist
      (dedupFirst (enemy_ids.filter (fun x => x ≠ 0))) 50
      ⟨dedupFirst (enemy_ids.filter (fun x => x ≠ 0)), ROLES, []⟩ hinv0
      (by show (dedupFirst (enemy_ids.filter (fun x => x ≠ 0))).length ≤ 50; omega)
    rw [hfe] at hp1 hp2
    rw [List.foldl_nil] at hp1 hp2
    rw [List.mem_map] at hp1 hp2
    obtain ⟨c1, hc1, heq1⟩ := hp1
    obtain ⟨c2, hc2, heq2⟩ := hp2
    have hs1 := hfi.covers c1 hc1
    rw [hfe] at hs1
    rcases hs1 with h1 | h1
    · cases h1
    obtain ⟨r1, hr1⟩ := Option.isSome_iff_exists.mp h1
    have hs2 := hfi.covers c2 hc2
    rw [hfe] at hs2
    rcases hs2 with h2 | h2
    · cases h2
    obtain ⟨r2, hr2⟩ := Option.isSome_iff_exists.mp h2
    have hp1eq : p1 = (c1, r1) := by
      rw [← heq1, hr1]
      rfl
    have hp2eq : p2 = (c2, r2) := by
      rw [← heq2, hr2]
      rfl
    have hm1 := lookup_mem hr1
    have hm2 := lookup_mem hr2
    rw [hp1eq, hp2eq]
    intro hreq
    simp only [] at hreq
    have hpair : (c1, r1) = (c2, r2) :=
      List.inj_on_of_nodup_map hfi.assigned_roles_nodup hm1 hm2 (by simpa using hreq)
    have hc12 : c1 = c2 := congrArg Prod.fst hpair
    rw [hp1eq, hp2eq] at hne
    exact hne (by simpa using hc12)

set_option maxRecDepth 100000 in
/-- Witness for the role-assignment injectivity theorem, fully instantiated:
both concrete assignments are in the result and their roles differ. -/
theorem guess_enemy_roles_injective_witness :
    ((103 : ℤ), "JUNGLE") ∈ guess_enemy_roles_iterative [103, 268] distExample ∧
      ((268 : ℤ), "TOP") ∈ guess_enemy_roles_iterative [103, 268] distExample ∧
      ("JUNGLE" : String) ≠ "TOP" :=
  ⟨by with_unfolding_all decide, by with_unfolding_all decide,
    guess_enemy_roles_injective [103, 268] distExample (by decide) (by decide)
      (103, "JUNGLE") (by with_unfolding_all decide)
      (268, "TOP") (by with_unfolding_all decide) (by decide)⟩

/-! ## Open-mode candidate filter (src/recommender.py, recommend_champions)

In open mode (use_champ_pool false) the candidate set is read from
agg_champ_role: per-champion summed games at the target role within scope,
ordered by sample size descending, capped, ban-filtered, and kept only when
the pick rate games / total_games_for_role reaches min_pick_rate. -/

/-- SQL condition of _patch_condition: the arg is the literal ALL, or the row
patch equals it. -/
def patchCond (patchArg : String) (p : String) : Bool :=
  patchArg = "ALL" || p = patchArg

/-- SQL condition of _tier_condition: the arg is the literal ALL, the row tier
equals it, or the row tier is NULL. -/
def tierCond (tierArg : String) (t : Option String) : Bool :=
  tierArg = "ALL" || t = some tierArg || t = none

/-- Scope predicate of the recommender queries over an agg_champ_role row. -/
def champRowMatch (roleDb patchArg tierArg : String)
    (r : ChampRoleKey × ℕ × ℕ) : Bool :=
  r.1.2.2.1 = roleDb && patchCond patchArg r.1.1 && tierCond tierArg r.1.2.1

/-- The total_games_for_role query: SUM(games) over the scope at the role. -/
def totalGamesForRole (tbl : AggTable ChampRoleKey)
    (roleDb patchArg tierArg : String) : ℕ :=
  ((tbl.filter (champRowMatch roleDb patchArg tierArg)).map (fun r => r.2.1)).sum

/-- Per-champion summed games of the candidate query (GROUP BY champ_id). -/
def champGames (tbl : AggTable ChampRoleKey)
    (roleDb patchArg tierArg : String) (cid : ℤ) : ℕ :=
  ((tbl.filter (fun r => champRowMatch roleDb patchArg tierArg r
      && r.1.2.2.2 = cid)).map (fun r => r.2.1)).sum

/-- Rows of the candidate query: one (champ, summed games) pair per distinct
champion in scope, ordered by games descending, capped at max_candidates. -/
def candidateRows (tbl : AggTable ChampRoleKey)
    (roleDb patchArg tierArg : String) (maxc : ℕ) : List (ℤ × ℕ) :=
  let cids := dedupFirst
    ((tbl.filter (champRowMatch roleDb patchArg tierArg)).map (fun r => r.1.2.2.2))
  (((cids.map (fun c => (c, champGames tbl roleDb patchArg tierArg c))).mergeSort
    (fun a b => b.2 ≤ a.2)).take maxc)

/-- The open-mode candidate set of recommend_champions: empty when the scope
has no games; otherwise the capped candidate rows, skipping bans and keeping
a champion only when games / total_games_for_role reaches min_pick_rate. -/
def openModeCandidates (tbl : AggTable ChampRoleKey)
    (roleDb patchArg tierArg : String) (bans : List ℤ)
    (min_pick_rate : ℚ) (maxc : ℕ) : List ℤ :=
  let total := totalGamesForRole tbl roleDb patchArg tierArg
  let banset := bans.filter (fun x => x ≠ 0)
  if total = 0 then []
  else
    (candidateRows tbl roleDb patchArg tierArg maxc).filterMap (fun rc =>
      if rc.1 ∈ banset then none
      else
        let pr : ℚ := if 0 < total then (rc.2 : ℚ) / (total : ℚ) else 0
        if min_pick_rate ≤ pr then some rc.1 else none)

/-- C6: in open mode, every candidate id returned by the filter satisfies
games / total_games_for_role at least min_pick_rate, where games is the
summed game count of that id at the target role within scope and
total_games_for_role the summed game count of all rows at that role within
scope; no id below the threshold is returned. -/
theorem open_mode_candidates_meet_pick_rate (tbl : AggTable ChampRoleKey)
    (roleDb patchArg tierArg : String) (bans : List ℤ)
    (min_pick_rate : ℚ) (maxc : ℕ) (cid : ℤ)
    (h : cid ∈ openModeCandidates tbl roleDb patchArg tierArg bans min_pick_rate maxc) :
    min_pick_rate ≤ (champGames tbl roleDb patchArg tierArg cid : ℚ)
      / (totalGamesForRole tbl roleDb patchArg tierArg : ℚ) := by
  unfold openModeCandidates at h
  by_cases htot : totalGamesForRole tbl roleDb patchArg tierArg = 0
  · rw [if_pos htot] at h
    cases h
  · rw [if_neg htot] at h
    rw [List.mem_filterMap] at h
    obtain ⟨rc, hrc, hf⟩ := h
    by_cases hban : rc.1 ∈ bans.filter (fun x => x ≠ 0)
    · rw [if_pos hban] at hf
      cases hf
    · rw [if_neg hban] at hf
      have htpos : 0 < totalGamesForRole tbl roleDb patchArg tierArg := by omega
      rw [if_pos htpos] at hf
      by_cases hrate : min_pick_rate
          ≤ (rc.2 : ℚ) / (totalGamesForRole tbl roleDb patchArg tierArg : ℚ)
      · have hcid : rc.1 = cid := by
          rw [if_pos hrate] at hf
          exact Option.some.inj hf
        have hg : rc.2 = champGames tbl roleDb patchArg tierArg cid := by
          have hmem : rc ∈ (dedupFirst ((tbl.filter
              (champRowMatch roleDb patchArg tierArg)).map (fun r => r.1.2.2.2))).map
              (fun c => (c, champGames tbl roleDb patchArg tierArg c)) := by
            have h1 := List.take_subset maxc _ hrc
            rw [List.mem_mergeSort] at h1
            exact h1
          rw [List.mem_map] at hmem
          obtain ⟨c, _, hceq⟩ := hmem
          have h1 : c = rc.1 := by rw [← hceq]
          have h2 : rc.2 = champGames tbl roleDb patchArg tierArg c := by rw [← hceq]
          rw [h2, h1, hcid]
        rw [← hg]
        exact hrate
      · rw [if_neg hrate] at hf
        cases hf

/-- Witness for the open-mode pick-rate theorem at a concrete input: champion
7 with 100 of the 105 scope games passes a 5 percent threshold. -/
theorem open_mode_candidates_meet_pick_rate_witness :
    (5 / 100 : ℚ) ≤ (champGames
        [(("16.2", some "GOLD", "TOP", 7), 100, 50),
         (("16.2", some "GOLD", "TOP", 8), 5, 2)] "TOP" "ALL" "ALL" 7 : ℚ)
      / (totalGamesForRole
        [(("16.2", some "GOLD", "TOP", 7), 100, 50),
         (("16.2", some "GOLD", "TOP", 8), 5, 2)] "TOP" "ALL" "ALL" : ℚ) :=
  open_mode_candidates_meet_pick_rate
    [(("16.2", some "GOLD", "TOP", 7), 100, 50),
     (("16.2", some "GOLD", "TOP", 8), 5, 2)] "TOP" "ALL" "ALL" [] (5 / 100) 400 7
    (by with_unfolding_all decide)

/-! ## Crawler failure semantics (src/collector_graph.py, main)

Control-flow skeleton of the crawl loop: the frontier pop, the seen check,
the per-identity fetches and the exception structure are one-to-one with the
source; persistence details (bans, rank snapshots, tier computation,
non-target exploration) are elided, as the failure-semantics claim observes
only which fetches run and how their errors propagate.  Only the
league-entries call sits inside a try/except; every other fetch error unwinds
to the single handler around the whole while loop, which checkpoints and
re-raises. -/

/-- Failure classes surfaced by the API client after its internal retries. -/
inductive FetchErr where
  | authError : FetchErr
  | rateLimited : FetchErr
  | serverError : FetchErr
  | networkError : FetchErr
deriving DecidableEq

/-- Match detail payload as observed by the crawl loop. -/
structure MatchDetail where
  queueId : ℤ
  patch : String
  participants : List String
deriving DecidableEq

/-- The four upstream fetches the crawl loop performs per identity. -/
structure CrawlApi where
  matchIds : String → Except FetchErr (List String)
  summoner : String → Except FetchErr Unit
  leagueEntries : String → Except FetchErr (Option String)
  matchDetail : String → Except FetchErr MatchDetail

/-- Crawl session state: frontier queue, visited set, visited count, persisted
match ids, and the number of checkpoint flushes. -/
structure CrawlState where
  queue : List String
  seen : List String
  total_players : ℕ
  saved : List String
  checkpoints : ℕ
deriving DecidableEq

/-- One commit plus checkpoint_save. -/
def checkpointSave (st : CrawlState) : CrawlState :=
  { st with checkpoints := st.checkpoints + 1 }

/-- The per-match loop of one visit: skip matches already stored, fetch each
detail (errors propagate), keep ranked-queue matches of a target patch and
enqueue their unseen participants. -/
def visitMatches (api : CrawlApi) (patches existing seen : List String)
    (mids : List String) : Except FetchErr (List String × List String) :=
  mids.foldlM (fun acc mid =>
    if mid ∈ existing then pure acc
    else do
      let d ← api.matchDetail mid
      if d.queueId ≠ 420 then pure acc
      else if d.patch ∈ patches then
        pure (acc.1 ++ d.participants.filter (fun q => ¬ q ∈ seen), acc.2 ++ [mid])
      else pure acc) ([], [])

/-- One identity visit: list its match ids (errors propagate; an empty list
short-circuits the visit), fetch the summoner (errors propagate), fetch rank
entries inside try/except (errors swallowed), then walk the matches. -/
def crawlVisit (api : CrawlApi) (patches existing seen : List String)
    (p : String) : Except FetchErr (List String × List String) := do
  let mids ← api.matchIds p
  if mids.isEmpty then pure ([], [])
  else do
    let _ ← api.summoner p
    let _ := api.leagueEntries p
    visitMatches api patches existing seen mids

/-- The while loop of main: pop, discard seen entries, visit, enqueue and
persist; a visit error carries the current state out of the loop.  The source
loop terminates because each iteration either drops a frontier entry or counts
a new player against max_players; we make that explicit with fuel, and every
concrete run below supplies ample fuel. -/
def crawlLoop (api : CrawlApi) (maxp : ℕ) (patches : List String) :
    ℕ → CrawlState → Except (FetchErr × CrawlState) CrawlState
  | 0, st => .ok st
  | fuel + 1, st =>
      match st.queue with
      | [] => .ok st
      | p :: rest =>
          if maxp ≤ st.total_players then .ok st
          else if p ∈ st.seen then
            crawlLoop api maxp patches fuel { st with queue := rest }
          else
            let st1 : CrawlState := { st with
              queue := rest
              seen := st.seen ++ [p]
              total_players := st.total_players + 1 }
            match crawlVisit api patches st.saved st1.seen p with
            | .error e => .error (e, st1)
            | .ok (newIds, newSaved) =>
                crawlLoop api maxp patches fuel { st1 with
                  queue := st1.queue ++ newIds
                  saved := st1.saved ++ newSaved }

/-- Embedding of main from src/collector_graph.py around the crawl loop: on
normal exit commit and checkpoint; on any exception commit, checkpoint and
re-raise. -/
def collector_main (api : CrawlApi) (maxp : ℕ) (patches : List String)
    (fuel : ℕ) (st : CrawlState) : Except (FetchErr × CrawlState) CrawlState :=
  match crawlLoop api maxp patches fuel st with
  | .ok st2 => .ok (checkpointSave st2)
  | .error (e, st2) => .error (e, checkpointSave st2)

/-- A concrete api for the crawl-loop runs: identity A has one fresh ranked
target-patch match, the match-id listing for identity B exhausts its
rate-limit retries, identity C is never reached. -/
def apiCx : CrawlApi where
  matchIds := fun p => if p = "B" then .error .rateLimited
    else if p = "A" then .ok ["M1"] else .ok []
  summoner := fun _ => .ok ()
  leagueEntries := fun _ => .ok (some "GOLD")
  matchDetail := fun _ => .ok ⟨420, "16.2", []⟩

/-- A match-id-listing error propagates out of the whole visit: only the
rank-entries call of a visit sits inside a try/except. -/
theorem crawlVisit_error_of_matchIds (api : CrawlApi) (patches existing seen : List String)
    (p : String) (e : FetchErr) (h : api.matchIds p = .error e) :
    crawlVisit api patches existing seen p = .error e := by
  unfold crawlVisit
  rw [h]
  rfl

theorem except_bind_ok {ε α β : Type _} (a : α) (f : α → Except ε β) :
    (Except.ok a >>= f) = f a := rfl

theorem except_bind_err {ε α β : Type _} (e : ε) (f : α → Except ε β) :
    ((Except.error e : Except ε α) >>= f) = .error e := rfl

/-- A summoner-lookup error propagates out of the whole visit (the visit
reaches the summoner call whenever the match-id list is nonempty). -/
theorem crawlVisit_error_of_summoner (api : CrawlApi)
    (patches existing seen : List String) (p : String) (mids : List String)
    (e : FetchErr) (hok : api.matchIds p = .ok mids) (hne : mids ≠ [])
    (hs : api.summoner p = .error e) :
    crawlVisit api patches existing seen p = .error e := by
  cases mids with
  | nil => exact absurd rfl hne
  | cons m ms =>
      unfold crawlVisit
      simp only [hok, hs, except_bind_ok, except_bind_err, List.isEmpty_cons,
        Bool.false_eq_true, if_false]

/-- A match-detail error propagates out of the whole visit: here failing at
the first listed match id that is not already stored. -/
theorem crawlVisit_error_of_matchDetail (api : CrawlApi)
    (patches existing seen : List String) (p mid : String) (mrest : List String)
    (e : FetchErr) (hok : api.matchIds p = .ok (mid :: mrest))
    (hnew : mid ∉ existing) (hsum : api.summoner p = .ok ())
    (hdet : api.matchDetail mid = .error e) :
    crawlVisit api patches existing seen p = .error e := by
  unfold crawlVisit visitMatches
  simp only [hok, hsum, except_bind_ok, List.isEmpty_cons, Bool.false_eq_true,
    if_false, List.foldlM, if_neg hnew, hdet, except_bind_err]

/-- The crawl outcome never depends on the rank-entries endpoint: its result
is discarded by the try/except, so replacing it by any other endpoint leaves
every run unchanged. -/
theorem crawlLoop_league_irrel (api : CrawlApi)
    (le : String → Except FetchErr (Option String)) (maxp : ℕ)
    (patches : List String) :
    ∀ (fuel : ℕ) (st : CrawlState),
      crawlLoop { api with leagueEntries := le } maxp patches fuel st
        = crawlLoop api maxp patches fuel st := by
  intro fuel
  induction fuel with
  | zero => intro st; rfl
  | succ n ih =>
      intro st
      simp only [crawlLoop]
      cases hq : st.queue with
      | nil => rfl
      | cons p rest =>
          by_cases hm : maxp ≤ st.total_players
          · simp [hm]
          · by_cases hs : p ∈ st.seen
            · simp [hm, hs, ih]
            · simp only [if_neg hm, if_neg hs]
              have hv : crawlVisit { api with leagueEntries := le } patches st.saved
                  (st.seen ++ [p]) p = crawlVisit api patches st.saved (st.seen ++ [p]) p := rfl
              rw [hv]
              cases hcv : crawlVisit api patches st.saved (st.seen ++ [p]) p with
              | error e => rfl
              | ok pr =>
                  obtain ⟨ni, ns⟩ := pr
                  exact ih _

/-- C3, counterexample to the claim as stated.  The claim says a non-auth
fetch failure for one identity does not abort the session and the crawler
continues with the next frontier entry.  In the code only the rank-entries
call is wrapped in try/except; a rate-limited match-id listing for identity B
unwinds to the handler around the whole loop, which checkpoints and
re-raises: the session ends in an error and frontier entry C is never
visited, even though the error is not an auth error. -/
theorem crawler_rate_limit_aborts_session :
    collector_main apiCx 10 ["16.2"] 10 ⟨["A", "B", "C"], [], 0, [], 0⟩
        = .error (.rateLimited, ⟨["C"], ["A", "B"], 2, ["M1"], 1⟩) ∧
      FetchErr.rateLimited ≠ FetchErr.authError := by
  refine ⟨rfl, ?_⟩
  intro h
  cases h

/-- C3, amended.  (1) Any visit failure for the identity at the head of the
frontier — auth or not — aborts the session: main re-raises after one final
checkpoint, with the rest of the frontier unvisited.  A visit fails (2) when
its match-id listing fails, (3) when its summoner lookup fails (reached
whenever the match-id list is nonempty), and (4) when a match-detail fetch
fails (here at the first listed match id not already stored).  (5) Only the
rank-entries fetch is absorbed: its outcome never affects any run, so in
particular rank-entries failures never abort. -/
theorem crawler_failure_semantics :
    (∀ (api : CrawlApi) (maxp : ℕ) (patches : List String) (fuel : ℕ)
        (st : CrawlState) (p : String) (rest : List String) (e : FetchErr),
      st.queue = p :: rest → p ∉ st.seen → st.total_players < maxp →
      crawlVisit api patches st.saved (st.seen ++ [p]) p = .error e →
      collector_main api maxp patches (fuel + 1) st
        = .error (e, checkpointSave { st with
            queue := rest
            seen := st.seen ++ [p]
            total_players := st.total_players + 1 })) ∧
    (∀ (api : CrawlApi) (patches existing seen : List String) (p : String)
        (e : FetchErr),
      api.matchIds p = .error e →
      crawlVisit api patches existing seen p = .error e) ∧
    (∀ (api : CrawlApi) (patches existing seen : List String) (p : String)
        (mids : List String) (e : FetchErr),
      api.matchIds p = .ok mids → mids ≠ [] → api.summoner p = .error e →
      crawlVisit api patches existing seen p = .error e) ∧
    (∀ (api : CrawlApi) (patches existing seen : List String) (p mid : String)
        (mrest : List String) (e : FetchErr),
      api.matchIds p = .ok (mid :: mrest) → mid ∉ existing →
      api.summoner p = .ok () → api.matchDetail mid = .error e →
      crawlVisit api patches existing seen p = .error e) ∧
    (∀ (api : CrawlApi) (le : String → Except FetchErr (Option String))
        (maxp : ℕ) (patches : List String) (fuel : ℕ) (st : CrawlState),
      collector_main { api with leagueEntries := le } maxp patches fuel st
        = collector_main api maxp patches fuel st) := by
  refine ⟨?_, ?_, ?_, ?_, ?_⟩
  · intro api maxp patches fuel st p rest e hq hseen hmax hvisit
    simp only [collector_main, crawlLoop, hq]
    rw [if_neg (by omega), if_neg hseen, hvisit]
  · intro api patches existing seen p e herr
    exact crawlVisit_error_of_matchIds api patches existing seen p e herr
  · intro api patches existing seen p mids e hok hne hs
    exact crawlVisit_error_of_summoner api patches existing seen p mids e hok hne hs
  · intro api patches existing seen p mid mrest e hok hnew hsum hdet
    exact crawlVisit_error_of_matchDetail api patches existing seen p mid mrest e
      hok hnew hsum hdet
  · intro api le maxp patches fuel st
    unfold collector_main
    rw [crawlLoop_league_irrel]

/-- C3 witness: the amended abort statement instantiated at the concrete api,
mid-crawl, at the failing identity B. -/
theorem crawler_failure_semantics_witness :
    collector_main apiCx 10 ["16.2"] 10 ⟨["B", "C"], ["A"], 1, ["M1"], 0⟩
      = .error (.rateLimited, checkpointSave ⟨["C"], ["A", "B"], 2, ["M1"], 0⟩) :=
  crawler_failure_semantics.1 apiCx 10 ["16.2"] 9 ⟨["B", "C"], ["A"], 1, ["M1"], 0⟩
    "B" ["C"] .rateLimited rfl (by decide) (by decide) rfl

/-! ## Rate limiter (src/riot_api.py, _throttle_before_request / _note_request)

Simulated-clock embedding: time is a rational that advances only while the
client sleeps.  Pacing is off by default (RIOT_PACE unset) and no response
headers arrive in the simulation, so the throttle thresholds stay at their
configured values; the sleep quantum is 0.05 s = 1/20.  Both window deques
evict from the front while the oldest entry is STRICTLY older than the
horizon, exactly as the source's while conditions do. -/

/-- Front eviction of a timestamp deque: pop while now - ts[0] > horizon. -/
def evictOld (w : List ℚ) (now horizon : ℚ) : List ℚ :=
  match w with
  | [] => []
  | t :: rest => if now - t > horizon then evictOld rest now horizon else w

/-- Rate limiter state: simulated clock, the two sliding-window deques and the
accumulated sleep time. -/
structure RateState where
  now : ℚ
  ts1 : List ℚ
  ts120 : List ℚ
  sleep_total : ℚ
deriving DecidableEq

/-- need_wait of one throttle iteration: start at 0, raise to
oldest + window - now for each window that is at the threshold. -/
def needWait (t1 t120 : ℕ) (w1 w120 : List ℚ) (now : ℚ) : ℚ :=
  let nw0 : ℚ := 0
  let nw1 : ℚ := match w1 with
    | [] => nw0
    | t :: _ => if t1 ≤ w1.length then max nw0 (t + 1 - now) else nw0
  match w120 with
  | [] => nw1
  | t :: _ => if t120 ≤ w120.length then max nw1 (t + 120 - now) else nw1

/-- The while True loop of _throttle_before_request: evict both windows in
place, compute need_wait, return when it is ≤ 0, otherwise sleep
min(need_wait, 0.05) and retry.  Fuel bounds the iterations; concrete runs
supply enough for the longest wait they contain. -/
def throttleLoop (t1 t120 : ℕ) : ℕ → RateState → Option RateState
  | 0, _ => none
  | fuel + 1, st =>
      let w1 := evictOld st.ts1 st.now 1
      let w120 := evictOld st.ts120 st.now 120
      let nw := needWait t1 t120 w1 w120 st.now
      if nw ≤ 0 then some { st with ts1 := w1, ts120 := w120 }
      else
        let s := min nw (1 / 20)
        throttleLoop t1 t120 fuel { st with
          now := st.now + s
          ts1 := w1
          ts120 := w120
          sleep_total := st.sleep_total + s }

/-- _note_request: append the current time to both deques, then evict. -/
def noteRequest (st : RateState) : RateState :=
  let now := st.now
  { st with
    ts1 := evictOld (st.ts1 ++ [now]) now 1
    ts120 := evictOld (st.ts120 ++ [now]) now 120 }

/-- Issue n back-to-back requests through the throttle, recording the
simulated time at which each request is issued. -/
def issueCalls (t1 t120 : ℕ) (fuelPerCall : ℕ) :
    ℕ → RateState → List ℚ → Option (List ℚ × RateState)
  | 0, st, acc => some (acc, st)
  | n + 1, st, acc =>
      match throttleLoop t1 t120 fuelPerCall st with
      | none => none
      | some st1 => issueCalls t1 t120 fuelPerCall n (noteRequest st1) (acc ++ [st1.now])

/-- Number of issued requests inside the half-open rolling window (t - len, t],
the window the eviction conditions delimit. -/
def windowCount (trace : List ℚ) (t len : ℚ) : ℕ :=
  (trace.filter (fun x => decide (t - len < x ∧ x ≤ t))).length

set_option maxRecDepth 100000 in
/-- C8: the sliding-window claim fails at the window boundary.  With a
1-second threshold of 2, six back-to-back calls from t = 0 are issued at
times 0, 0, 1, 1, 1, 1: once the clock reaches exactly oldest + 1, eviction
(strictly older than 1 s) keeps both old timestamps in the window yet
need_wait = (oldest + 1) - now = 0 passes the non-strict release check, so
requests 4 to 6 are admitted without any wait.  The rolling 1-second window
(0, 1] then holds 4 requests, exceeding the configured limit of 2. -/
theorem rate_limiter_boundary_burst :
    (issueCalls 2 100 30 6 ⟨0, [], [], 0⟩ []).map Prod.fst
        = some [0, 0, 1, 1, 1, 1] ∧
      windowCount [0, 0, 1, 1, 1, 1] 1 1 = 4 ∧ 2 < 4 := by
  refine ⟨by with_unfolding_all decide, by with_unfolding_all decide, by decide⟩
